import Mathlib

/-!
Verification development for the dynamic-memory allocator in `mm.c`
(a CS:APP-style malloc package whose free blocks are indexed by a
red-black tree keyed on block size, for a 32-bit system).

The development contains two embeddings of the source:

* a heap-level model (`MMAlloc`): the heap is the physical list of
  blocks between the prologue and the epilogue, each block carrying the
  header fields (`size`, `alloc` bit, `color` bit) and its payload
  bytes; the free-block index is modelled by the binary search tree of
  `(payload address, block size)` pairs that `rb_insert` / `rb_delete`
  maintain (the red-black recoloring/rotation passes only change the
  shape of the search tree, never its membership or its in-order key
  sequence, so they are not replayed at this level);

* a pointer-level model (`RBPtr`): a faithful transliteration of the
  red-black tree routines of `mm.c` (`rotate_left`, `rotate_right`,
  `transplant`, `tree_minimum`, `rb_insert`, `rb_insert_fixup`,
  `rb_delete`, `rb_delete_fixup`) and of the heap checker's tree
  validator, over a store of nodes addressed by `Nat` with `0` playing
  the role of the C null pointer.  The C `while` loops are given an
  explicit fuel; exhausting the fuel is reported as `none`.

Addresses are payload addresses, as in the source: the first block
after the prologue lives at byte address 16.
-/

namespace MMAlloc

/-! ### Constants from mm.c -/

/-- Word and header/footer size in bytes (`WSIZE`). -/
def WSIZE : Nat := 4

/-- Double word size in bytes (`DSIZE`). -/
def DSIZE : Nat := 8

/-- Heap extension granularity in bytes (`CHUNKSIZE`, `1<<12`). -/
def CHUNKSIZE : Nat := 4096

/-- Minimum block size in bytes (`MIN_BLK_SIZE`, `6 * WSIZE`). -/
def MIN_BLK_SIZE : Nat := 6 * WSIZE

/-- The size adjustment performed at the top of `mm_malloc` (and again in
`mm_realloc`): payloads up to `DSIZE + WSIZE*3` bytes are mapped to the
minimum block size, larger payloads to
`DSIZE * ((size + DSIZE + (DSIZE-1)) / DSIZE)`. -/
def adjust_asize (size : Nat) : Nat :=
  if size ≤ DSIZE + WSIZE * 3 then MIN_BLK_SIZE
  else DSIZE * ((size + DSIZE + (DSIZE - 1)) / DSIZE)

/-! ### The free-block index, as a size-keyed binary search tree

`rb_insert` descends with "smaller size goes left, greater-or-equal
goes right"; `rb_delete` removes the node for one given block, using
the standard three-case splice (no left child / no right child / splice
with the in-order successor `tree_minimum(RIGHT_CHILD(z))`); `find_fit`
walks from the root recording the most recent node whose size is at
least the target.  A node stores the block's payload address and the
size recorded in its header. -/

inductive FTree where
  | leaf : FTree
  | node : FTree → Nat → Nat → FTree → FTree
deriving DecidableEq

/-- In-order list of `(address, size)` pairs stored in the index. -/
def elems : FTree → List (Nat × Nat)
  | .leaf => []
  | .node l bp sz r => elems l ++ (bp, sz) :: elems r

/-- The descent loop of `find_fit`: `best` is the `best_fit` variable of
the source (the most recent node whose size was at least `asize`,
together with that size). -/
def find_fit_go (asize : Nat) : FTree → Option (Nat × Nat) → Option (Nat × Nat)
  | .leaf, best => best
  | .node l bp sz r, best =>
    if asize ≤ sz then find_fit_go asize l (some (bp, sz))
    else find_fit_go asize r best

/-- `find_fit`: search the index for the best fit for `asize` bytes.
The source returns the block pointer; the size half of the pair is the
value of its header, which the source re-reads via `GET_SIZE`. -/
def find_fit (asize : Nat) (t : FTree) : Option (Nat × Nat) :=
  find_fit_go asize t none

/-- The descent of `rb_insert`: sizes strictly smaller than the current
node go left, all others go right.  Rebalancing only rotates and
recolors, so the membership and in-order ordering of the result are
those of the plain search-tree insertion. -/
def idx_insert : FTree → Nat → Nat → FTree
  | .leaf, a, sz => .node .leaf a sz .leaf
  | .node l b bsz r, a, sz =>
    if sz < bsz then .node (idx_insert l a sz) b bsz r
    else .node l b bsz (idx_insert r a sz)

/-- `tree_minimum`: the leftmost pair of a nonempty tree. -/
def minPair : FTree → Option (Nat × Nat)
  | .leaf => none
  | .node .leaf bp sz _ => some (bp, sz)
  | .node (.node l b s r) _ _ _ => minPair (.node l b s r)

/-- Remove the leftmost node of a tree. -/
def delMin : FTree → FTree
  | .leaf => .leaf
  | .node .leaf _ _ r => r
  | .node (.node l b s r) bp sz r2 => .node (delMin (.node l b s r)) bp sz r2

/-- The effect of `rb_delete` on the search tree: drop the node whose
block address is `a`, transplanting a missing-child side directly and
otherwise splicing the in-order successor into the vacated position.
Rebalancing (`rb_delete_fixup`) only rotates and recolors. -/
def idx_delete : FTree → Nat → FTree
  | .leaf, _ => .leaf
  | .node l bp sz r, a =>
    if bp = a then
      match l, r with
      | .leaf, _ => r
      | .node l1 b1 s1 r1, .leaf => .node l1 b1 s1 r1
      | .node l1 b1 s1 r1, .node l2 b2 s2 r2 =>
        match minPair (.node l2 b2 s2 r2) with
        | some (mb, ms) => .node (.node l1 b1 s1 r1) mb ms (delMin (.node l2 b2 s2 r2))
        | none => .node l1 b1 s1 r1
    else .node (idx_delete l a) bp sz (idx_delete r a)

/-- The search-tree ordering maintained by `rb_insert`: block sizes in
a left subtree are strictly smaller than the node's size, block sizes
in a right subtree are greater or equal (equal sizes go right). -/
def Ordered : FTree → Prop
  | .leaf => True
  | .node l _ sz r =>
    (∀ p ∈ elems l, p.2 < sz) ∧ (∀ p ∈ elems r, sz ≤ p.2) ∧ Ordered l ∧ Ordered r

/-! ### The heap-level model -/

/-- One physical block: the header fields of the source (`size` in
bytes including the 8 bytes of header and footer, the allocated bit,
the color bit — `0` red, `1` black) together with the payload bytes
that sit between header and footer (`size - 8` of them). -/
structure Block where
  size  : Nat
  alloc : Bool
  color : Nat
  data  : List Nat
deriving DecidableEq

/-- Allocator state: the physical blocks between prologue and epilogue
in address order, the free-block index, the number of bytes obtained
from `mem_sbrk` so far, and the capacity of the backing store (requests
pushing `used` beyond `limit` make `mem_sbrk` fail). -/
structure MM where
  blocks : List Block
  tree   : FTree
  used   : Nat
  limit  : Nat
deriving DecidableEq

/-- Total size in bytes of a list of blocks. -/
def sizeSum (bs : List Block) : Nat := (bs.map Block.size).sum

/-- Payload address of the first block after the prologue
(`heap_listp + DSIZE` = 16). -/
def heapBase : Nat := 16

/-- Find the block whose payload address is `a`, walking the physical
block list from address `cur`; returns its position and contents. -/
def locate : List Block → Nat → Nat → Option (Nat × Block)
  | [], _, _ => none
  | b :: bs, cur, a =>
    if a = cur then some (0, b)
    else
      match locate bs (cur + b.size) a with
      | some (i, blk) => some (i + 1, blk)
      | none => none

/-- The four residue bytes left behind where a footer or header stood
after two blocks merge (their values are never consulted). -/
def metaPad : List Nat := List.replicate 4 0

/-- `coalesce`: merge the free block at `bp` with its free physical
neighbours.  The previous block of the first list entry is the
prologue and the next block of the last entry is the epilogue, both
permanently allocated.  Free neighbours are first removed from the
index (`rb_delete`), the merged block is rewritten with
`PACK(size, 1, 0)`, and the result re-enters the index (`rb_insert`). -/
def coalesce (mm : MM) (bp : Nat) : Nat × MM :=
  match locate mm.blocks heapBase bp with
  | none => (bp, mm)
  | some (i, blk) =>
    let pb? : Option Block := if i = 0 then none else mm.blocks[i-1]?
    let nb? : Option Block := mm.blocks[i+1]?
    let prev_alloc : Bool := pb?.elim true Block.alloc
    let next_alloc : Bool := nb?.elim true Block.alloc
    let prev_size : Nat := pb?.elim 0 Block.size
    let next_size : Nat := nb?.elim 0 Block.size
    let prev_data : List Nat := pb?.elim [] Block.data
    let next_data : List Nat := nb?.elim [] Block.data
    if prev_alloc = true ∧ next_alloc = false then
      let sz := blk.size + next_size
      let t1 := idx_delete mm.tree (bp + blk.size)
      let bs1 := ((mm.blocks.set i
        { size := sz, alloc := false, color := 1,
          data := blk.data ++ metaPad ++ metaPad ++ next_data }).eraseIdx (i+1))
      (bp, { mm with blocks := bs1, tree := idx_insert t1 bp sz })
    else if prev_alloc = false ∧ next_alloc = true then
      let sz := blk.size + prev_size
      let bp2 := bp - prev_size
      let t1 := idx_delete mm.tree bp2
      let bs1 := ((mm.blocks.set (i-1)
        { size := sz, alloc := false, color := 1,
          data := prev_data ++ metaPad ++ metaPad ++ blk.data }).eraseIdx i)
      (bp2, { mm with blocks := bs1, tree := idx_insert t1 bp2 sz })
    else if prev_alloc = false ∧ next_alloc = false then
      let sz := blk.size + prev_size + next_size
      let bp2 := bp - prev_size
      let t1 := idx_delete (idx_delete mm.tree bp2) (bp + blk.size)
      let bs1 := (((mm.blocks.set (i-1)
        { size := sz, alloc := false, color := 1,
          data := prev_data ++ metaPad ++ metaPad ++ blk.data
                    ++ metaPad ++ metaPad ++ next_data }).eraseIdx i).eraseIdx i)
      (bp2, { mm with blocks := bs1, tree := idx_insert t1 bp2 sz })
    else
      (bp, { mm with tree := idx_insert mm.tree bp blk.size })

/-- `extend_heap`: round the word count up to even, never grow by less
than the minimum block size, ask the backing store for the bytes,
lay out the new region as one free block followed by a fresh epilogue
header, and pass it through `coalesce`. -/
def extend_heap (mm : MM) (words : Nat) : Option (Nat × MM) :=
  let size0 := if words % 2 = 1 then (words + 1) * WSIZE else words * WSIZE
  let size := if size0 < MIN_BLK_SIZE then MIN_BLK_SIZE else size0
  if mm.limit < mm.used + size then none
  else
    let bp := heapBase + sizeSum mm.blocks
    let nb : Block := { size := size, alloc := false, color := 1,
                        data := List.replicate (size - 8) 0 }
    some (coalesce { mm with blocks := mm.blocks ++ [nb], used := mm.used + size } bp)

/-- `place`: carve `asize` bytes out of the free block at `bp`.  The
block leaves the index; if the leftover is at least the minimum block
size the block is split and the remainder is inserted directly into
the index (not coalesced), otherwise the whole block is allocated. -/
def place (mm : MM) (bp asize : Nat) : MM :=
  match locate mm.blocks heapBase bp with
  | none => mm
  | some (i, blk) =>
    let csize := blk.size
    let t1 := idx_delete mm.tree bp
    if MIN_BLK_SIZE ≤ csize - asize then
      let b1 : Block := { size := asize, alloc := true, color := 1,
                          data := blk.data.take (asize - 8) }
      let b2 : Block := { size := csize - asize, alloc := false, color := 1,
                          data := blk.data.drop asize }
      { mm with blocks := (mm.blocks.set i b1).insertIdx (i+1) b2,
                tree := idx_insert t1 (bp + asize) (csize - asize) }
    else
      { mm with blocks := mm.blocks.set i { blk with alloc := true, color := 1 },
                tree := t1 }

/-- `mm_malloc`: zero requests yield null; otherwise adjust the size,
try `find_fit`, and on a miss extend the heap by
`max(asize, CHUNKSIZE)` bytes before placing.  The null pointer is
address `0`. -/
def mm_malloc (mm : MM) (size : Nat) : Nat × MM :=
  if size = 0 then (0, mm)
  else
    let asize := adjust_asize size
    match find_fit asize mm.tree with
    | some (bp, _) => (bp, place mm bp asize)
    | none =>
      let extendsize := max asize CHUNKSIZE
      match extend_heap mm (extendsize / WSIZE) with
      | none => (0, mm)
      | some (bp, mm1) => (bp, place mm1 bp asize)

/-- `mm_free`: null is a no-op; otherwise clear the allocated bit
(keeping the color bit) and coalesce. -/
def mm_free (mm : MM) (bp : Nat) : MM :=
  if bp = 0 then mm
  else
    match locate mm.blocks heapBase bp with
    | none => mm
    | some (i, blk) =>
      (coalesce { mm with blocks := mm.blocks.set i { blk with alloc := false } } bp).2

/-- `mm_realloc`: null pointer degrades to `mm_malloc`, size zero to
`mm_free` returning null.  Otherwise, if the adjusted size fits the
current block the original pointer is returned unchanged; if the next
physical block is free and large enough it is absorbed (splitting off
any leftover of at least the minimum block size); otherwise a fresh
block is allocated, `old_size - DSIZE` payload bytes are copied, and
the original block is freed. -/
def mm_realloc (mm : MM) (ptr size : Nat) : Nat × MM :=
  if ptr = 0 then mm_malloc mm size
  else if size = 0 then (0, mm_free mm ptr)
  else
    match locate mm.blocks heapBase ptr with
    | none => (0, mm)
    | some (i, blk) =>
      let old_size := blk.size
      let new_size := adjust_asize size
      if new_size ≤ old_size then (ptr, mm)
      else
        let nb? : Option Block := mm.blocks[i+1]?
        let next_alloc : Bool := nb?.elim true Block.alloc
        let next_size : Nat := nb?.elim 0 Block.size
        let next_data : List Nat := nb?.elim [] Block.data
        if next_alloc = false ∧ new_size ≤ old_size + next_size then
          let t1 := idx_delete mm.tree (ptr + old_size)
          let total := old_size + next_size
          let full := blk.data ++ metaPad ++ metaPad ++ next_data
          if MIN_BLK_SIZE ≤ total - new_size then
            let b1 : Block := { size := new_size, alloc := true, color := 1,
                                data := full.take (new_size - 8) }
            let b2 : Block := { size := total - new_size, alloc := false, color := 1,
                                data := full.drop new_size }
            (ptr, { mm with blocks := (mm.blocks.set i b1).set (i+1) b2,
                            tree := idx_insert t1 (ptr + new_size) (total - new_size) })
          else
            let b1 : Block := { size := total, alloc := true, color := 1, data := full }
            (ptr, { mm with blocks := (mm.blocks.set i b1).eraseIdx (i+1), tree := t1 })
        else
          let res := mm_malloc mm size
          let np := res.1
          let mm1 := res.2
          if np = 0 then (0, mm1)
          else
            let copy_size := old_size - DSIZE
            match locate mm1.blocks heapBase np, locate mm1.blocks heapBase ptr with
            | some (j, nblk), some (_, oblk) =>
              let nblk2 := { nblk with
                data := oblk.data.take copy_size ++ nblk.data.drop copy_size }
              (np, mm_free { mm1 with blocks := mm1.blocks.set j nblk2 } ptr)
            | _, _ => (np, mm_free mm1 ptr)

/-- `mm_init`: obtain the 16 bytes for padding, prologue and epilogue,
then extend the empty heap by `CHUNKSIZE` bytes; either backing-store
failure makes initialization fail. -/
def mm_init (limit : Nat) : Option MM :=
  if limit < 4 * WSIZE then none
  else
    match extend_heap { blocks := [], tree := .leaf, used := 4 * WSIZE,
                        limit := limit } (CHUNKSIZE / WSIZE) with
    | none => none
    | some (_, mm1) => some mm1

/-- Total number of free bytes held in a list of blocks. -/
def freeBytesL (bs : List Block) : Nat :=
  ((bs.filter (fun b => b.alloc = false)).map Block.size).sum

/-- Total number of free bytes held in the heap's blocks. -/
def freeBytes (mm : MM) : Nat := freeBytesL mm.blocks

/-- The coalescing invariant: no two physically adjacent blocks are
both free (the prologue and epilogue sentinels are always allocated,
so only interior adjacencies matter). -/
def noAdjFree (bs : List Block) : Prop :=
  List.Chain' (fun a b => a = true ∨ b = true) (bs.map Block.alloc)

/-- Structural health of the block list: every block is at least the
minimum block size, aligned to 8 bytes, and carries exactly
`size - 8` payload bytes between its header and footer. -/
def goodBlocks (bs : List Block) : Prop :=
  ∀ b ∈ bs, MIN_BLK_SIZE ≤ b.size ∧ b.size % 8 = 0 ∧ b.data.length = b.size - 8

/-- The `(address, size)` pairs of the free blocks of a block list
laid out from address `cur`, in address order. -/
def freePairs : List Block → Nat → List (Nat × Nat)
  | [], _ => []
  | b :: bs, cur =>
    (if b.alloc = false then [(cur, b.size)] else []) ++ freePairs bs (cur + b.size)

/-- The allocator's standing invariant: healthy blocks, no two
adjacent free blocks, and the free index holds exactly the free
blocks of the heap — the same `(address, size)` pairs, each exactly
once. -/
def WF (mm : MM) : Prop :=
  goodBlocks mm.blocks ∧ noAdjFree mm.blocks ∧
  (elems mm.tree).Perm (freePairs mm.blocks heapBase)

/-- The block (with its header fields and payload) that lives at
address `a`. -/
def blockAt (mm : MM) (a : Nat) : Option Block :=
  (locate mm.blocks heapBase a).map Prod.snd

/-- A legitimate argument for `mm_free` / `mm_realloc`: null, or the
address of a currently allocated block (anything else is undefined
behaviour by the contract). -/
def ValidPtr (mm : MM) (p : Nat) : Prop :=
  p = 0 ∨ ∃ i blk, locate mm.blocks heapBase p = some (i, blk) ∧ blk.alloc = true

/-- The states reachable from initialization by completed public
operations used within their contract (`mm_free` and `mm_realloc`
only receive null or live block addresses). -/
inductive Reachable : MM → Prop
  | init (limit : Nat) (mm : MM) : mm_init limit = some mm → Reachable mm
  | malloc (mm : MM) (s : Nat) : Reachable mm → Reachable (mm_malloc mm s).2
  | free (mm : MM) (p : Nat) : Reachable mm → ValidPtr mm p → Reachable (mm_free mm p)
  | realloc (mm : MM) (p s : Nat) : Reachable mm → ValidPtr mm p →
      Reachable (mm_realloc mm p s).2

/-- Header information of the block at address `a`: its size and its
allocated bit, as the heap checker would read them. -/
def blockInfo (mm : MM) (a : Nat) : Option (Nat × Bool) :=
  (locate mm.blocks heapBase a).map (fun p => (p.2.size, p.2.alloc))

/-- Number of free blocks in the heap. -/
def freeCount (mm : MM) : Nat :=
  (mm.blocks.filter (fun b => b.alloc = false)).length

/-- Payload bytes of the block at address `a`. -/
def payload (mm : MM) (a : Nat) : Option (List Nat) :=
  (locate mm.blocks heapBase a).map (fun p => p.2.data)

/-! ### Concrete states used by witnesses and counterexamples -/

/-- The heap right after `mm_init` against a 100000-byte backing store:
one free 4096-byte block at address 16, alone in the index. -/
def heap0 : MM :=
  { blocks := [{ size := 4096, alloc := false, color := 1,
                 data := List.replicate 4088 0 }],
    tree := .node .leaf 16 4096 .leaf,
    used := 4112, limit := 100000 }

/-- `heap0` after `mm_malloc 100`: a 112-byte allocated block at 16
followed by the free 3984-byte remainder at 128. -/
def heap1 : MM := (mm_malloc heap0 100).2

end MMAlloc

namespace RBPtr

/-! ### Pointer-level transliteration of the red-black tree routines

A free block, seen as a tree node: its parent/left/right pointers (the
first three payload words), and the size and color recorded in its
header.  Addresses are `Nat`, with `0` for the C null pointer; the
store is a total function, and `TState.root` is the global `rb_root`.
The `while` loops receive explicit fuel; `none` means the fuel ran out
before the C loop exited. -/

structure TNode where
  parent : Nat
  left   : Nat
  right  : Nat
  size   : Nat
  color  : Nat
deriving DecidableEq

structure TState where
  nodes : Nat → TNode
  root  : Nat

/-- Store update. -/
def upd (f : Nat → TNode) (a : Nat) (n : TNode) : Nat → TNode :=
  fun x => if x = a then n else f x

/-- `PARENT(bp)`. -/
def PARENT (s : TState) (x : Nat) : Nat := (s.nodes x).parent

/-- `LEFT_CHILD(bp)`. -/
def LEFT_CHILD (s : TState) (x : Nat) : Nat := (s.nodes x).left

/-- `RIGHT_CHILD(bp)`. -/
def RIGHT_CHILD (s : TState) (x : Nat) : Nat := (s.nodes x).right

/-- `GET_SIZE(HDRP(bp))`. -/
def SIZE (s : TState) (x : Nat) : Nat := (s.nodes x).size

/-- `GET_COLOR(HDRP(bp))`: 0 red, 1 black. -/
def GET_COLOR (s : TState) (x : Nat) : Nat := (s.nodes x).color

/-- `SET_PARENT(bp, p)`. -/
def SET_PARENT (s : TState) (x p : Nat) : TState :=
  { s with nodes := upd s.nodes x { s.nodes x with parent := p } }

/-- `SET_LEFT_CHILD(bp, l)`. -/
def SET_LEFT_CHILD (s : TState) (x l : Nat) : TState :=
  { s with nodes := upd s.nodes x { s.nodes x with left := l } }

/-- `SET_RIGHT_CHILD(bp, r)`. -/
def SET_RIGHT_CHILD (s : TState) (x r : Nat) : TState :=
  { s with nodes := upd s.nodes x { s.nodes x with right := r } }

/-- `SET_COLOR(p, color)`: a no-op on null, otherwise rewrites header
and footer with the new color. -/
def SET_COLOR (s : TState) (p color : Nat) : TState :=
  if p = 0 then s
  else { s with nodes := upd s.nodes p { s.nodes p with color := color } }

/-- `SET_RED(p)`. -/
def SET_RED (s : TState) (p : Nat) : TState := SET_COLOR s p 0

/-- `SET_BLACK(p)`. -/
def SET_BLACK (s : TState) (p : Nat) : TState := SET_COLOR s p 1

/-- `rotate_left`, statement by statement. -/
def rotate_left (s0 : TState) (x : Nat) : TState :=
  let y := RIGHT_CHILD s0 x
  let s1 := SET_RIGHT_CHILD s0 x (LEFT_CHILD s0 y)
  let s2 := if LEFT_CHILD s1 y ≠ 0 then SET_PARENT s1 (LEFT_CHILD s1 y) x else s1
  let s3 := SET_PARENT s2 y (PARENT s2 x)
  let s4 := if PARENT s3 x = 0 then { s3 with root := y }
            else if x = LEFT_CHILD s3 (PARENT s3 x) then SET_LEFT_CHILD s3 (PARENT s3 x) y
            else SET_RIGHT_CHILD s3 (PARENT s3 x) y
  let s5 := SET_LEFT_CHILD s4 y x
  SET_PARENT s5 x y

/-- `rotate_right`, statement by statement. -/
def rotate_right (s0 : TState) (x : Nat) : TState :=
  let y := LEFT_CHILD s0 x
  let s1 := SET_LEFT_CHILD s0 x (RIGHT_CHILD s0 y)
  let s2 := if RIGHT_CHILD s1 y ≠ 0 then SET_PARENT s1 (RIGHT_CHILD s1 y) x else s1
  let s3 := SET_PARENT s2 y (PARENT s2 x)
  let s4 := if PARENT s3 x = 0 then { s3 with root := y }
            else if x = RIGHT_CHILD s3 (PARENT s3 x) then SET_RIGHT_CHILD s3 (PARENT s3 x) y
            else SET_LEFT_CHILD s3 (PARENT s3 x) y
  let s5 := SET_RIGHT_CHILD s4 y x
  SET_PARENT s5 x y

/-- `transplant(u, v)`. -/
def transplant (s : TState) (u v : Nat) : TState :=
  let s1 := if PARENT s u = 0 then { s with root := v }
            else if u = LEFT_CHILD s (PARENT s u) then SET_LEFT_CHILD s (PARENT s u) v
            else SET_RIGHT_CHILD s (PARENT s u) v
  if v ≠ 0 then SET_PARENT s1 v (PARENT s1 u) else s1

/-- The descent loop of `tree_minimum` (`x` is non-null here). -/
def tree_minimum_go (s : TState) : Nat → Nat → Option Nat
  | _, 0 => none
  | x, fuel+1 => if LEFT_CHILD s x = 0 then some x
                 else tree_minimum_go s (LEFT_CHILD s x) fuel

/-- The descent loop of `rb_insert`: find the leaf position for a node
of size `z_size`; returns the final value of `y`. -/
def rb_insert_descend (s : TState) (z_size : Nat) : Nat → Nat → Nat → Option Nat
  | _, _, 0 => none
  | x, y, fuel+1 =>
    if x = 0 then some y
    else if z_size < SIZE s x then rb_insert_descend s z_size (LEFT_CHILD s x) x fuel
    else rb_insert_descend s z_size (RIGHT_CHILD s x) x fuel

/-- The `while` loop of `rb_insert_fixup`, followed by
`SET_BLACK(rb_root)`. -/
def rb_insert_fixup_go (s : TState) (z : Nat) : Nat → Option TState
  | 0 => none
  | fuel+1 =>
    if PARENT s z ≠ 0 ∧ GET_COLOR s (PARENT s z) = 0 then
      let grandparent := PARENT s (PARENT s z)
      if PARENT s z = LEFT_CHILD s grandparent then
        let uncle := RIGHT_CHILD s grandparent
        if uncle ≠ 0 ∧ GET_COLOR s uncle = 0 then
          let s1 := SET_BLACK s (PARENT s z)
          let s2 := SET_BLACK s1 uncle
          let s3 := SET_RED s2 grandparent
          rb_insert_fixup_go s3 grandparent fuel
        else
          let p := if z = RIGHT_CHILD s (PARENT s z) then
              (rotate_left s (PARENT s z), PARENT s z)
            else (s, z)
          let s1 := p.1
          let z1 := p.2
          let gp := PARENT s1 (PARENT s1 z1)
          let s2 := SET_BLACK s1 (PARENT s1 z1)
          let s3 := SET_RED s2 gp
          rb_insert_fixup_go (rotate_right s3 gp) z1 fuel
      else
        let uncle := LEFT_CHILD s grandparent
        if uncle ≠ 0 ∧ GET_COLOR s uncle = 0 then
          let s1 := SET_BLACK s (PARENT s z)
          let s2 := SET_BLACK s1 uncle
          let s3 := SET_RED s2 grandparent
          rb_insert_fixup_go s3 grandparent fuel
        else
          let p := if z = LEFT_CHILD s (PARENT s z) then
              (rotate_right s (PARENT s z), PARENT s z)
            else (s, z)
          let s1 := p.1
          let z1 := p.2
          let gp := PARENT s1 (PARENT s1 z1)
          let s2 := SET_BLACK s1 (PARENT s1 z1)
          let s3 := SET_RED s2 gp
          rb_insert_fixup_go (rotate_left s3 gp) z1 fuel
    else some (SET_BLACK s s.root)

/-- `rb_insert(z)`: descend, link `z` in as a red leaf, fix up. -/
def rb_insert (s : TState) (z : Nat) (fuel : Nat) : Option TState :=
  match rb_insert_descend s (SIZE s z) s.root 0 fuel with
  | none => none
  | some y =>
    let s1 := SET_PARENT s z y
    let s2 := if y = 0 then { s1 with root := z }
              else if SIZE s1 z < SIZE s1 y then SET_LEFT_CHILD s1 y z
              else SET_RIGHT_CHILD s1 y z
    let s3 := SET_LEFT_CHILD s2 z 0
    let s4 := SET_RIGHT_CHILD s3 z 0
    rb_insert_fixup_go (SET_RED s4 z) z fuel

/-- The `while` loop of `rb_delete_fixup`.  The result carries the
final value of `x` so that the trailing `if (x != NULL) SET_BLACK(x)`
can run after a `break` as well as after a normal exit.  Note that
when `x` is null the code guesses `parent_x = rb_root`, exactly as the
source does. -/
def rb_delete_fixup_go (s : TState) (x : Nat) : Nat → Option (TState × Nat)
  | 0 => none
  | fuel+1 =>
    if x ≠ s.root ∧ (x = 0 ∨ GET_COLOR s x = 1) then
      let parent_x := if x ≠ 0 then PARENT s x else s.root
      if x = LEFT_CHILD s parent_x then
        let w := RIGHT_CHILD s parent_x
        if w = 0 then some (s, x)
        else
          let p := if GET_COLOR s w = 0 then
              let sA := SET_BLACK s w
              let sB := SET_RED sA parent_x
              let sC := rotate_left sB parent_x
              (sC, RIGHT_CHILD sC parent_x)
            else (s, w)
          let s1 := p.1
          let w1 := p.2
          if w1 = 0 then some (s1, x)
          else if (LEFT_CHILD s1 w1 = 0 ∨ GET_COLOR s1 (LEFT_CHILD s1 w1) = 1) ∧
                  (RIGHT_CHILD s1 w1 = 0 ∨ GET_COLOR s1 (RIGHT_CHILD s1 w1) = 1) then
            rb_delete_fixup_go (SET_RED s1 w1) parent_x fuel
          else
            let q := if RIGHT_CHILD s1 w1 = 0 ∨ GET_COLOR s1 (RIGHT_CHILD s1 w1) = 1 then
                let sA := if LEFT_CHILD s1 w1 ≠ 0 then SET_BLACK s1 (LEFT_CHILD s1 w1) else s1
                let sB := SET_RED sA w1
                let sC := rotate_right sB w1
                (sC, RIGHT_CHILD sC parent_x)
              else (s1, w1)
            let s2 := q.1
            let w2 := q.2
            if w2 = 0 then some (s2, x)
            else
              let s3 := SET_COLOR s2 w2 (GET_COLOR s2 parent_x)
              let s4 := SET_BLACK s3 parent_x
              let s5 := if RIGHT_CHILD s4 w2 ≠ 0 then SET_BLACK s4 (RIGHT_CHILD s4 w2) else s4
              let s6 := rotate_left s5 parent_x
              rb_delete_fixup_go s6 s6.root fuel
      else
        let w := LEFT_CHILD s parent_x
        if w = 0 then some (s, x)
        else
          let p := if GET_COLOR s w = 0 then
              let sA := SET_BLACK s w
              let sB := SET_RED sA parent_x
              let sC := rotate_right sB parent_x
              (sC, LEFT_CHILD sC parent_x)
            else (s, w)
          let s1 := p.1
          let w1 := p.2
          if w1 = 0 then some (s1, x)
          else if (RIGHT_CHILD s1 w1 = 0 ∨ GET_COLOR s1 (RIGHT_CHILD s1 w1) = 1) ∧
                  (LEFT_CHILD s1 w1 = 0 ∨ GET_COLOR s1 (LEFT_CHILD s1 w1) = 1) then
            rb_delete_fixup_go (SET_RED s1 w1) parent_x fuel
          else
            let q := if LEFT_CHILD s1 w1 = 0 ∨ GET_COLOR s1 (LEFT_CHILD s1 w1) = 1 then
                let sA := if RIGHT_CHILD s1 w1 ≠ 0 then SET_BLACK s1 (RIGHT_CHILD s1 w1) else s1
                let sB := SET_RED sA w1
                let sC := rotate_left sB w1
                (sC, LEFT_CHILD sC parent_x)
              else (s1, w1)
            let s2 := q.1
            let w2 := q.2
            if w2 = 0 then some (s2, x)
            else
              let s3 := SET_COLOR s2 w2 (GET_COLOR s2 parent_x)
              let s4 := SET_BLACK s3 parent_x
              let s5 := if LEFT_CHILD s4 w2 ≠ 0 then SET_BLACK s4 (LEFT_CHILD s4 w2) else s4
              let s6 := rotate_right s5 parent_x
              rb_delete_fixup_go s6 s6.root fuel
    else some (s, x)

/-- `rb_delete_fixup(x)`: the loop followed by the trailing
`if (x != NULL) SET_BLACK(x)`. -/
def rb_delete_fixup (s : TState) (x : Nat) (fuel : Nat) : Option TState :=
  (rb_delete_fixup_go s x fuel).map
    (fun p => if p.2 ≠ 0 then SET_BLACK p.1 p.2 else p.1)

/-- `rb_delete(z)`: the three-case deletion with successor splice;
fixup runs exactly when the removed node's original color was black. -/
def rb_delete (s : TState) (z : Nat) (fuel : Nat) : Option TState :=
  if z = 0 then some s
  else if LEFT_CHILD s z = 0 then
    let x := RIGHT_CHILD s z
    let s1 := transplant s z x
    if GET_COLOR s z = 1 then rb_delete_fixup s1 x fuel else some s1
  else if RIGHT_CHILD s z = 0 then
    let x := LEFT_CHILD s z
    let s1 := transplant s z x
    if GET_COLOR s z = 1 then rb_delete_fixup s1 x fuel else some s1
  else
    match tree_minimum_go s (RIGHT_CHILD s z) fuel with
    | none => none
    | some y =>
      let y_original_color := GET_COLOR s y
      let x := RIGHT_CHILD s y
      let s1 := if PARENT s y = z then (if x ≠ 0 then SET_PARENT s x y else s)
                else
                  let sA := transplant s y x
                  let sB := SET_RIGHT_CHILD sA y (RIGHT_CHILD sA z)
                  SET_PARENT sB (RIGHT_CHILD sB z) y
      let s2 := transplant s1 z y
      let s3 := SET_LEFT_CHILD s2 y (LEFT_CHILD s2 z)
      let s4 := SET_PARENT s3 (LEFT_CHILD s3 y) y
      let s5 := SET_COLOR s4 y (GET_COLOR s4 z)
      if y_original_color = 1 then rb_delete_fixup s5 x fuel else some s5

/-- The recursive helper of the heap checker
(`check_rb_properties_recursive`): checks the red-red rule, the
parent/child link consistency, and the uniformity of the black count
on every path to a null position; threads the first completed path's
black height. -/
def check_props (s : TState) : Nat → Nat → Option Nat → Nat → Option (Bool × Option Nat)
  | _, _, _, 0 => none
  | node, black_count, pbh, fuel+1 =>
    if node = 0 then
      let bc := black_count + 1
      match pbh with
      | none => some (true, some bc)
      | some h => if h = bc then some (true, some h) else some (false, some h)
    else
      if GET_COLOR s node = 0 ∧
         ((LEFT_CHILD s node ≠ 0 ∧ GET_COLOR s (LEFT_CHILD s node) = 0) ∨
          (RIGHT_CHILD s node ≠ 0 ∧ GET_COLOR s (RIGHT_CHILD s node) = 0)) then
        some (false, pbh)
      else
        let bc := if GET_COLOR s node = 1 then black_count + 1 else black_count
        if (LEFT_CHILD s node ≠ 0 ∧ PARENT s (LEFT_CHILD s node) ≠ node) ∨
           (RIGHT_CHILD s node ≠ 0 ∧ PARENT s (RIGHT_CHILD s node) ≠ node) then
          some (false, pbh)
        else
          match check_props s (LEFT_CHILD s node) bc pbh fuel with
          | none => none
          | some (false, p) => some (false, p)
          | some (true, p) => check_props s (RIGHT_CHILD s node) bc p fuel

/-- `validate_rb_tree`: root is black, and the recursive property
check succeeds with a uniform black height. -/
def validate_rb_tree (s : TState) (fuel : Nat) : Option Bool :=
  if s.root ≠ 0 ∧ GET_COLOR s s.root ≠ 1 then some false
  else (check_props s s.root 0 none fuel).map (fun p => p.1)

/-- A valid red-black tree of seven free blocks (sizes 24..72, all
black), on which `rb_delete` of the leftmost leaf will be run. -/
def exNodes : Nat → TNode := fun a =>
  if a = 40 then { parent := 0, left := 20, right := 60, size := 48, color := 1 }
  else if a = 20 then { parent := 40, left := 10, right := 30, size := 32, color := 1 }
  else if a = 60 then { parent := 40, left := 50, right := 70, size := 64, color := 1 }
  else if a = 10 then { parent := 20, left := 0, right := 0, size := 24, color := 1 }
  else if a = 30 then { parent := 20, left := 0, right := 0, size := 40, color := 1 }
  else if a = 50 then { parent := 60, left := 0, right := 0, size := 56, color := 1 }
  else if a = 70 then { parent := 60, left := 0, right := 0, size := 72, color := 1 }
  else { parent := 0, left := 0, right := 0, size := 0, color := 0 }

/-- The seven-node tree above, rooted at the block of size 48. -/
def exState : TState := { nodes := exNodes, root := 40 }

end RBPtr

namespace MMAlloc

/-! ### Basic facts about the size adjustment -/

/-- `adjust_asize` always returns a multiple of the alignment unit. -/
theorem adjust_asize_mod8 (s : Nat) : adjust_asize s % 8 = 0 := by
  unfold adjust_asize MIN_BLK_SIZE DSIZE WSIZE
  split
  · rfl
  · exact Nat.mul_mod_right 8 _

/-- `adjust_asize` never returns less than the minimum block size. -/
theorem adjust_asize_min (s : Nat) : MIN_BLK_SIZE ≤ adjust_asize s := by
  unfold adjust_asize MIN_BLK_SIZE DSIZE WSIZE
  split
  · exact le_refl _
  · rename_i h
    have h21 : 21 ≤ s := by omega
    have : 36 / 8 ≤ (s + 8 + 7) / 8 := Nat.div_le_div_right (by omega)
    omega

/-! ### Best-fit search (claim C6) -/

/-- Specification of the `find_fit` descent loop.  If `best` is either
empty or a candidate that fits the request and strictly dominates
every size in the current subtree — which is exactly the situation at
every call the loop makes on itself — then: a `none` answer means the
accumulator was empty and nothing in the subtree fits, and a
`some (bp, sz)` answer is a node of the subtree (or the accumulator)
that fits the request and whose size is minimal among the fitting
sizes of the subtree and the accumulator. -/
theorem find_fit_go_spec (asize : Nat) (t : FTree) :
    ∀ best : Option (Nat × Nat), Ordered t →
    (∀ b ∈ best, asize ≤ b.2 ∧ ∀ q ∈ elems t, q.2 < b.2) →
    (find_fit_go asize t best = none → best = none ∧ ∀ q ∈ elems t, q.2 < asize) ∧
    (∀ bp sz, find_fit_go asize t best = some (bp, sz) →
       ((bp, sz) ∈ elems t ∨ best = some (bp, sz)) ∧ asize ≤ sz ∧
       (∀ q ∈ elems t, asize ≤ q.2 → sz ≤ q.2) ∧
       (∀ b ∈ best, sz ≤ b.2)) := by
  induction t with
  | leaf =>
    intro best ho hb
    constructor
    · intro h
      simp only [find_fit_go] at h
      exact ⟨h, by simp [elems]⟩
    · intro bp sz h
      simp only [find_fit_go] at h
      refine ⟨Or.inr h, (hb (bp, sz) (by simp [h])).1, by simp [elems], ?_⟩
      intro b hbm
      rw [h] at hbm
      simp at hbm
      obtain rfl := hbm
      exact Nat.le_refl _
  | node l bp0 sz0 r ihl ihr =>
    intro best ho hb
    obtain ⟨hl, hr, hol, hor⟩ := ho
    by_cases hc : asize ≤ sz0
    · have hgo : find_fit_go asize (.node l bp0 sz0 r) best
          = find_fit_go asize l (some (bp0, sz0)) := by
        simp [find_fit_go, hc]
      have hb' : ∀ b ∈ some (bp0, sz0), asize ≤ b.2 ∧ ∀ q ∈ elems l, q.2 < b.2 := by
        intro b hbm
        simp at hbm
        subst hbm
        exact ⟨hc, hl⟩
      have IH := ihl (some (bp0, sz0)) hol hb'
      constructor
      · intro h
        rw [hgo] at h
        exact absurd (IH.1 h).1 (by simp)
      · intro bp sz h
        rw [hgo] at h
        obtain ⟨hmem, hsz, hmin, hbest⟩ := IH.2 bp sz h
        have hroot : (bp0, sz0) ∈ elems (FTree.node l bp0 sz0 r) := by simp [elems]
        have hmem' : (bp, sz) ∈ elems (FTree.node l bp0 sz0 r) := by
          rcases hmem with hm | hm
          · simp [elems]
            exact Or.inl hm
          · simp at hm
            obtain ⟨h1, h2⟩ := hm
            subst h1
            subst h2
            exact hroot
        have hszle0 : sz ≤ sz0 := hbest (bp0, sz0) (by simp)
        refine ⟨Or.inl hmem', hsz, ?_, ?_⟩
        · intro q hq hqs
          simp only [elems, List.mem_append, List.mem_cons] at hq
          rcases hq with hq | hq | hq
          · exact hmin q hq hqs
          · rw [hq]
            exact hszle0
          · exact le_trans hszle0 (hr q hq)
        · intro b hbm
          exact le_of_lt ((hb b hbm).2 (bp, sz) hmem')
    · have hgo : find_fit_go asize (.node l bp0 sz0 r) best
          = find_fit_go asize r best := by
        simp [find_fit_go, hc]
      have hb' : ∀ b ∈ best, asize ≤ b.2 ∧ ∀ q ∈ elems r, q.2 < b.2 := by
        intro b hbm
        refine ⟨(hb b hbm).1, fun q hq => (hb b hbm).2 q ?_⟩
        simp only [elems, List.mem_append, List.mem_cons]
        exact Or.inr (Or.inr hq)
      have IH := ihr best hor hb'
      constructor
      · intro h
        rw [hgo] at h
        obtain ⟨h1, h2⟩ := IH.1 h
        refine ⟨h1, ?_⟩
        intro q hq
        simp only [elems, List.mem_append, List.mem_cons] at hq
        rcases hq with hq | hq | hq
        · have := hl q hq
          omega
        · rw [hq]
          omega
        · exact h2 q hq
      · intro bp sz h
        rw [hgo] at h
        obtain ⟨hmem, hsz, hmin, hbest⟩ := IH.2 bp sz h
        refine ⟨?_, hsz, ?_, hbest⟩
        · rcases hmem with hm | hm
          · left
            simp only [elems, List.mem_append, List.mem_cons]
            exact Or.inr (Or.inr hm)
          · right
            exact hm
        · intro q hq hqs
          simp only [elems, List.mem_append, List.mem_cons] at hq
          rcases hq with hq | hq | hq
          · have := hl q hq
            omega
          · rw [hq] at hqs
            exact absurd hqs hc
          · exact hmin q hq hqs

/-- Claim C6.  On every index state satisfying the search-tree
ordering on block sizes, `find_fit` is a best-fit search: a returned
block is a tracked node whose size fits the request and is minimal
among all tracked sizes that fit, and the search returns null exactly
when no tracked block is large enough. -/
theorem C6_find_fit_is_best_fit (asize : Nat) (t : FTree) (ho : Ordered t) :
    (∀ bp sz, find_fit asize t = some (bp, sz) →
       (bp, sz) ∈ elems t ∧ asize ≤ sz ∧ ∀ q ∈ elems t, asize ≤ q.2 → sz ≤ q.2) ∧
    (find_fit asize t = none ↔ ∀ q ∈ elems t, q.2 < asize) := by
  have spec := find_fit_go_spec asize t none ho (by simp)
  constructor
  · intro bp sz h
    obtain ⟨hmem, hsz, hmin, _⟩ := spec.2 bp sz h
    rcases hmem with hm | hm
    · exact ⟨hm, hsz, hmin⟩
    · exact absurd hm (by simp)
  · constructor
    · intro h
      exact (spec.1 h).2
    · intro h
      rcases hff : find_fit asize t with _ | ⟨bp, sz⟩
      · rfl
      · obtain ⟨hmem, hsz, _, _⟩ := spec.2 bp sz hff
        rcases hmem with hm | hm
        · have := h (bp, sz) hm
          omega
        · exact absurd hm (by simp)

/-- Witness for claim C6 on a concrete ordered three-node index. -/
theorem C6_find_fit_witness :
    Ordered (FTree.node (FTree.node .leaf 200 32 .leaf) 16 112
               (FTree.node .leaf 400 4000 .leaf)) ∧
    find_fit 40 (FTree.node (FTree.node .leaf 200 32 .leaf) 16 112
               (FTree.node .leaf 400 4000 .leaf)) = some (16, 112) ∧
    (16, 112) ∈ elems (FTree.node (FTree.node .leaf 200 32 .leaf) 16 112
               (FTree.node .leaf 400 4000 .leaf)) ∧
    (∀ q ∈ elems (FTree.node (FTree.node .leaf 200 32 .leaf) 16 112
               (FTree.node .leaf 400 4000 .leaf)), 40 ≤ q.2 → 112 ≤ q.2) := by
  have ho : Ordered (FTree.node (FTree.node .leaf 200 32 .leaf) 16 112
               (FTree.node .leaf 400 4000 .leaf)) := by
    refine ⟨?_, ?_, ⟨?_, ?_, trivial, trivial⟩, ⟨?_, ?_, trivial, trivial⟩⟩ <;>
      simp [elems]
  have h := (C6_find_fit_is_best_fit 40 _ ho).1 16 112 rfl
  exact ⟨ho, rfl, h.1, h.2.2⟩

/-- Claim C1 (code bug).  The claim states that for every request `s > 0`
the block size carved out by `mm_malloc` is the smallest multiple of 8
that is at least `s` plus the 8 bytes of header/footer overhead and at
least `MIN_BLK_SIZE`, so that the payload area always has room for `s`
bytes.  The code instead maps every `s ≤ DSIZE + WSIZE*3 = 20` to the
24-byte minimum block, whose payload capacity is only 16 bytes: at
`s = 17` the chosen block size is 24, which is smaller than
`s + DSIZE = 25`, and a concrete `mm_malloc 17` on the freshly
initialized heap indeed carves out a 24-byte block whose payload area
cannot hold all 17 requested bytes. -/
theorem C1_undersized_block_at_17 :
    adjust_asize 17 = MIN_BLK_SIZE ∧
    adjust_asize 17 < 17 + DSIZE ∧
    (mm_malloc heap0 17).1 = 16 ∧
    blockInfo (mm_malloc heap0 17).2 16 = some (24, true) := by
  refine ⟨by decide, by decide, rfl, rfl⟩

/-- Claim C2, counterexample.  On the heap `heap1` the block at 16 is
live with block size 112; reallocating it to payload size 1 gives the
aligned size 24, so the freed remainder would be `112 - 24 = 88 ≥
MIN_BLK_SIZE` and the claim requires the remainder to be split off and
indexed.  The code returns the original pointer with the heap and the
index completely unchanged: the block still owns all 112 bytes and the
number of free blocks has not grown. -/
theorem C2_counterexample_no_split_on_shrink :
    mm_realloc heap1 16 1 = (16, heap1) ∧
    blockInfo heap1 16 = some (112, true) ∧
    MIN_BLK_SIZE ≤ 112 - adjust_asize 1 ∧
    freeCount heap1 = 1 ∧
    freeCount (mm_realloc heap1 16 1).2 = 1 := by
  refine ⟨rfl, rfl, by decide, rfl, rfl⟩

/-- Claim C2, as amended: whenever the aligned size of the new request
is no larger than the live block's current size, `mm_realloc` returns
the original pointer and leaves the heap, the index and every payload
byte exactly as they were — it never splits off the freed remainder,
not even when that remainder reaches the minimum block size. -/
theorem C2_shrink_returns_pointer_unchanged (mm : MM) (p n i : Nat) (blk : Block)
    (hp : p ≠ 0) (hn : n ≠ 0)
    (hloc : locate mm.blocks heapBase p = some (i, blk))
    (hle : adjust_asize n ≤ blk.size) :
    mm_realloc mm p n = (p, mm) := by
  simp [mm_realloc, hp, hn, hloc, hle]

/-- Witness for the amended claim C2, at the concrete shrink above. -/
theorem C2_shrink_witness :
    mm_realloc heap1 16 1 = (16, heap1) := by
  exact C2_shrink_returns_pointer_unchanged heap1 16 1 0
    { size := 112, alloc := true, color := 1,
      data := List.replicate 104 0 }
    (by decide) (by decide) (by rfl) (by decide)

/-- Claim C7.  `mm_realloc(NULL, n)` is exactly `mm_malloc(n)` — the
same returned address and the same resulting state — and for a
non-null `p`, `mm_realloc(p, 0)` is exactly `mm_free(p)` followed by a
null result. -/
theorem C7_realloc_degenerate_cases (mm : MM) (p n : Nat) :
    mm_realloc mm 0 n = mm_malloc mm n ∧
    (p ≠ 0 → mm_realloc mm p 0 = (0, mm_free mm p)) := by
  constructor
  · simp [mm_realloc]
  · intro hp
    simp [mm_realloc, hp]

/-- Witness for claim C7 at a concrete state and pointer. -/
theorem C7_realloc_degenerate_witness :
    mm_realloc heap1 0 40 = mm_malloc heap1 40 ∧
    mm_realloc heap1 16 0 = (0, mm_free heap1 16) := by
  exact ⟨(C7_realloc_degenerate_cases heap1 16 40).1,
         (C7_realloc_degenerate_cases heap1 16 40).2 (by decide)⟩

/-- Claim C8.  When no free block fits and the backing store cannot
supply the requested extension, `mm_malloc` returns the null address
and the state — heap blocks, free index, and growth accounting — is
exactly the one before the call; the growth request is made once, with
`max(asize, CHUNKSIZE)` bytes, and is not retried. -/
theorem C8_failed_growth_is_atomic (mm : MM) (s : Nat) (hs : s ≠ 0)
    (hmiss : find_fit (adjust_asize s) mm.tree = none)
    (hfail : mm.limit < mm.used + max (adjust_asize s) CHUNKSIZE) :
    mm_malloc mm s = (0, mm) := by
  have hmod : (max (adjust_asize s) CHUNKSIZE) % 8 = 0 := by
    rcases max_choice (adjust_asize s) CHUNKSIZE with h | h
    · rw [h]; exact adjust_asize_mod8 s
    · rw [h]; rfl
  have hbig : CHUNKSIZE ≤ max (adjust_asize s) CHUNKSIZE := le_max_right _ _
  have hext : extend_heap mm (max (adjust_asize s) CHUNKSIZE / WSIZE) = none := by
    generalize hEq : max (adjust_asize s) CHUNKSIZE = E at hmod hbig hfail
    rw [show CHUNKSIZE = 4096 from rfl] at hbig
    have h4 : WSIZE = 4 := rfl
    have h24 : MIN_BLK_SIZE = 24 := rfl
    simp only [extend_heap, h4, h24]
    rw [if_neg (show ¬ E / 4 % 2 = 1 by omega),
        if_neg (show ¬ E / 4 * 4 < 24 by omega),
        if_pos (show mm.limit < mm.used + E / 4 * 4 by omega)]
  simp only [mm_malloc, if_neg hs, hmiss, hext]

/-- Witness for claim C8: a heap whose backing store is exhausted at
4112 bytes; a request for 5000 bytes finds no fit, fails to grow, and
leaves the state untouched. -/
theorem C8_failed_growth_witness :
    mm_malloc { heap0 with limit := 4112 } 5000 = (0, { heap0 with limit := 4112 }) := by
  exact C8_failed_growth_is_atomic { heap0 with limit := 4112 } 5000
    (by decide) (by rfl) (by decide)

/-- Claim C9, counterexample.  Requesting 5000 bytes on the freshly
initialized heap (4096 free bytes, no fit) extends the backing store;
after the paired `mm_free` the heap holds 9104 free bytes, not the
4096 it held before the request, so the malloc/free round trip does
not restore the free byte count when the heap grew. -/
theorem C9_counterexample_growth_roundtrip :
    freeBytes heap0 = 4096 ∧
    (mm_malloc heap0 5000).1 = 16 ∧
    freeBytes (mm_free (mm_malloc heap0 5000).2 16) = 9104 := by
  refine ⟨rfl, rfl, rfl⟩

end MMAlloc

namespace RBPtr

/-- Claim C3 (code bug).  On the valid seven-node red-black tree
`exState` (root black, all nodes black, uniform black height — the
source's own `validate_rb_tree` accepts it), deleting the black leaf
of size 24 leaves a tree that the source's own validator rejects: the
removed leaf's replacement is null, `rb_delete_fixup` then guesses
`parent_x = rb_root` instead of the true parent, recolors the wrong
sibling red, and the black-height becomes non-uniform (2 on the path
through the recolored node's null child, 3 elsewhere). -/
theorem C3_delete_breaks_rb_invariants :
    validate_rb_tree exState 100 = some true ∧
    (rb_delete exState 10 100).bind (fun s => validate_rb_tree s 100) = some false := by
  exact ⟨rfl, rfl⟩

end RBPtr

namespace MMAlloc

/-! ### List and address infrastructure -/

theorem sizeSum_nil : sizeSum [] = 0 := rfl

theorem sizeSum_cons (b : Block) (bs : List Block) :
    sizeSum (b :: bs) = b.size + sizeSum bs := by
  simp [sizeSum]

theorem sizeSum_append (xs ys : List Block) :
    sizeSum (xs ++ ys) = sizeSum xs + sizeSum ys := by
  simp [sizeSum]

/-- A successful `locate` decomposes the block list at the found
position, and the found address is the base plus the sizes before. -/
theorem locate_eq_some (bs : List Block) : ∀ (base a i : Nat) (b : Block),
    locate bs base a = some (i, b) →
    ∃ pre post, bs = pre ++ b :: post ∧ pre.length = i ∧ a = base + sizeSum pre := by
  induction bs with
  | nil => intro base a i b h; simp [locate] at h
  | cons b0 rest ih =>
    intro base a i b h
    by_cases hab : a = base
    · simp [locate, hab] at h
      obtain ⟨hi, hb⟩ := h
      exact ⟨[], rest, by simp [hb], by simp [hi], by simp [hab, sizeSum_nil]⟩
    · simp only [locate, if_neg hab] at h
      rcases hrec : locate rest (base + b0.size) a with _ | ⟨i', blk⟩
      · rw [hrec] at h; simp at h
      · rw [hrec] at h
        simp at h
        obtain ⟨hi, hb⟩ := h
        obtain ⟨pre', post', hsplit, hlen, haddr⟩ := ih (base + b0.size) a i' blk hrec
        refine ⟨b0 :: pre', post', ?_, ?_, ?_⟩
        · rw [hb] at hsplit
          simp [hsplit]
        · simp only [List.length_cons, hlen]
          omega
        · rw [haddr, sizeSum_cons]
          omega

/-- `locate` finds the block sitting right after a prefix of positive-
size blocks. -/
theorem locate_at (pre : List Block) : ∀ (base : Nat) (blk : Block) (post : List Block),
    (∀ b ∈ pre, 0 < b.size) →
    locate (pre ++ blk :: post) base (base + sizeSum pre) = some (pre.length, blk) := by
  induction pre with
  | nil => intro base blk post _; simp [locate, sizeSum_nil]
  | cons b0 rest ih =>
    intro base blk post hpos
    have hb0 : 0 < b0.size := hpos b0 (by simp)
    have hne : base + sizeSum (b0 :: rest) ≠ base := by
      rw [sizeSum_cons]; omega
    simp only [List.cons_append, locate, if_neg hne, List.append_eq]
    have := ih (base + b0.size) blk post (fun b hb => hpos b (by simp [hb]))
    rw [show base + sizeSum (b0 :: rest) = base + b0.size + sizeSum rest by
      rw [sizeSum_cons]; omega]
    rw [this]
    simp

/-- `locate` never finds an address at or beyond the end of the list. -/
theorem locate_none_of_ge (bs : List Block) : ∀ (base a : Nat),
    (∀ b ∈ bs, 0 < b.size) → base + sizeSum bs ≤ a → locate bs base a = none := by
  induction bs with
  | nil => intro base a _ _; simp [locate]
  | cons b0 rest ih =>
    intro base a hpos hge
    rw [sizeSum_cons] at hge
    have hb0 : 0 < b0.size := hpos b0 (by simp)
    have hne : a ≠ base := by omega
    simp only [locate, if_neg hne]
    rw [ih (base + b0.size) a (fun b hb => hpos b (by simp [hb])) (by omega)]

/-- A found address lies before the end of the searched list (the
blocks having positive sizes). -/
theorem locate_lt_of_some (bs : List Block) (base a : Nat) (i : Nat) (b : Block)
    (hpos : ∀ c ∈ bs, 0 < c.size)
    (h : locate bs base a = some (i, b)) : a < base + sizeSum bs := by
  obtain ⟨pre, post, hsplit, _, haddr⟩ := locate_eq_some bs base a i b h
  have hb : 0 < b.size := hpos b (by simp [hsplit])
  rw [hsplit, sizeSum_append, sizeSum_cons, haddr]
  omega

/-- Searching an appended list: a hit in the first part wins. -/
theorem locate_append_left (xs ys : List Block) : ∀ (base a i : Nat) (b : Block),
    locate xs base a = some (i, b) → locate (xs ++ ys) base a = some (i, b) := by
  induction xs with
  | nil => intro base a i b h; simp [locate] at h
  | cons x rest ih =>
    intro base a i b h
    by_cases hab : a = base
    · simp [locate, hab] at h ⊢
      exact h
    · simp only [locate, if_neg hab, List.cons_append, List.append_eq] at h ⊢
      rcases hrec : locate rest (base + x.size) a with _ | ⟨i', blk⟩
      · rw [hrec] at h; simp at h
      · rw [hrec] at h
        rw [ih (base + x.size) a i' blk hrec]
        exact h

/-- Searching an appended list: a miss in the first part continues in
the second, with shifted indices. -/
theorem locate_append_right (xs : List Block) : ∀ (ys : List Block) (base a : Nat),
    locate xs base a = none →
    locate (xs ++ ys) base a
      = (locate ys (base + sizeSum xs) a).map (fun r => (r.1 + xs.length, r.2)) := by
  induction xs with
  | nil =>
    intro ys base a _
    simp only [List.nil_append, sizeSum_nil, Nat.add_zero]
    rcases h : locate ys base a with _ | ⟨i, b⟩ <;> simp
  | cons x rest ih =>
    intro ys base a h
    by_cases hab : a = base
    · simp [locate, hab] at h
    · simp only [locate, if_neg hab, List.cons_append, List.append_eq] at h ⊢
      rcases hrec : locate rest (base + x.size) a with _ | ⟨i', blk⟩
      · rw [ih ys (base + x.size) a hrec]
        rw [show base + x.size + sizeSum rest = base + sizeSum (x :: rest) by
          rw [sizeSum_cons]; omega]
        rcases h2 : locate ys (base + sizeSum (x :: rest)) a with _ | ⟨j, c⟩
        · simp
        · simp [Nat.add_assoc]
      · rw [hrec] at h; simp at h

/-! ### Shape lemmas for `set`, `eraseIdx`, `insertIdx` at a split -/

theorem set_at (pre : List Block) : ∀ (blk b : Block) (post : List Block),
    (pre ++ blk :: post).set pre.length b = pre ++ b :: post := by
  induction pre with
  | nil => intro blk b post; rfl
  | cons x rest ih => intro blk b post; simp [List.set, ih]

theorem eraseIdx_at (pre : List Block) : ∀ (blk : Block) (post : List Block),
    (pre ++ blk :: post).eraseIdx pre.length = pre ++ post := by
  induction pre with
  | nil => intro blk post; rfl
  | cons x rest ih => intro blk post; simp [List.eraseIdx, ih]

theorem insertIdx_at (pre : List Block) : ∀ (blk b : Block) (post : List Block),
    (pre ++ blk :: post).insertIdx (pre.length + 1) b = pre ++ blk :: b :: post := by
  induction pre with
  | nil => intro blk b post; rfl
  | cons x rest ih =>
    intro blk b post
    have := ih blk b post
    simp only [List.cons_append, List.length_cons, List.insertIdx_succ_cons, this]

theorem getElem?_at (pre : List Block) : ∀ (blk : Block) (post : List Block),
    (pre ++ blk :: post)[pre.length]? = some blk := by
  induction pre with
  | nil => intro blk post; simp
  | cons x rest ih => intro blk post; simpa using ih blk post

theorem getElem?_succ_at (pre : List Block) : ∀ (blk : Block) (post : List Block),
    (pre ++ blk :: post)[pre.length + 1]? = post.head? := by
  induction pre with
  | nil =>
    intro blk post
    rcases post with _ | ⟨p, ps⟩ <;> simp
  | cons x rest ih => intro blk post; simpa using ih blk post

/-! ### Facts about `freePairs` -/

theorem freePairs_append (xs : List Block) : ∀ (ys : List Block) (cur : Nat),
    freePairs (xs ++ ys) cur = freePairs xs cur ++ freePairs ys (cur + sizeSum xs) := by
  induction xs with
  | nil => intro ys cur; simp [freePairs, sizeSum_nil]
  | cons x rest ih =>
    intro ys cur
    simp only [List.cons_append, freePairs, List.append_eq, ih, sizeSum_cons,
      List.append_assoc]
    rw [show cur + x.size + sizeSum rest = cur + (x.size + sizeSum rest) by omega]

/-- `freePairs` of a list split at one block. -/
theorem freePairs_split (pre : List Block) (b : Block) (post : List Block) (cur : Nat) :
    freePairs (pre ++ b :: post) cur
      = freePairs pre cur
        ++ (if b.alloc = false then [(cur + sizeSum pre, b.size)] else [])
        ++ freePairs post (cur + sizeSum pre + b.size) := by
  rw [freePairs_append]
  simp only [freePairs, List.append_assoc]

theorem freePairs_lb (bs : List Block) : ∀ (cur : Nat) (q : Nat × Nat),
    q ∈ freePairs bs cur → cur ≤ q.1 := by
  induction bs with
  | nil => intro cur q h; simp [freePairs] at h
  | cons b rest ih =>
    intro cur q h
    simp only [freePairs, List.mem_append] at h
    rcases h with h | h
    · by_cases hb : b.alloc = false
      · rw [if_pos hb] at h
        simp at h
        simp [h]
      · rw [if_neg hb] at h
        simp at h
    · have := ih (cur + b.size) q h
      omega

/-- With positive block sizes the addresses in `freePairs` strictly
increase, hence are distinct. -/
theorem freePairs_sorted (bs : List Block) : ∀ (cur : Nat),
    (∀ b ∈ bs, 0 < b.size) →
    ((freePairs bs cur).map Prod.fst).Pairwise (· < ·) := by
  induction bs with
  | nil => intro cur _; simp [freePairs]
  | cons b rest ih =>
    intro cur hpos
    have hb : 0 < b.size := hpos b (by simp)
    have ihr := ih (cur + b.size) (fun c hc => hpos c (by simp [hc]))
    by_cases hba : b.alloc = false
    · simp only [freePairs, if_pos hba, List.singleton_append, List.map_cons,
        List.pairwise_cons]
      refine ⟨?_, ihr⟩
      intro x hx
      obtain ⟨q, hq, hqx⟩ := List.mem_map.mp hx
      have := freePairs_lb rest (cur + b.size) q hq
      omega
    · simp only [freePairs, if_neg hba, List.nil_append]
      exact ihr

theorem freePairs_nodup (bs : List Block) (cur : Nat)
    (hpos : ∀ b ∈ bs, 0 < b.size) :
    ((freePairs bs cur).map Prod.fst).Nodup :=
  (freePairs_sorted bs cur hpos).imp (fun h => Nat.ne_of_lt h)

/-! ### Membership behaviour of the index operations -/

theorem elems_idx_insert (t : FTree) (a sz : Nat) :
    (elems (idx_insert t a sz)).Perm ((a, sz) :: elems t) := by
  induction t with
  | leaf => simp [idx_insert, elems]
  | node l b bsz r ihl ihr =>
    by_cases h : sz < bsz
    · simp only [idx_insert, if_pos h, elems]
      exact ihl.append_right ((b, bsz) :: elems r)
    · simp only [idx_insert, if_neg h, elems]
      have h1 : (elems l ++ (b, bsz) :: elems (idx_insert r a sz)).Perm
          (elems l ++ (b, bsz) :: ((a, sz) :: elems r)) :=
        List.Perm.append_left _ (List.Perm.cons _ ihr)
      have h2 : (elems l ++ (b, bsz) :: ((a, sz) :: elems r)).Perm
          ((a, sz) :: (elems l ++ (b, bsz) :: elems r)) := by
        have := @List.perm_middle _ (a, sz) (elems l ++ [(b, bsz)]) (elems r)
        simpa using this
      exact h1.trans h2

theorem minPair_some : ∀ (t : FTree), t ≠ FTree.leaf → ∃ p, minPair t = some p := by
  intro t
  induction t with
  | leaf => intro h; exact absurd rfl h
  | node l b sz r ihl ihr =>
    intro _
    cases l with
    | leaf => exact ⟨(b, sz), rfl⟩
    | node l1 b1 s1 r1 =>
      obtain ⟨p, hp⟩ := ihl (by intro h; cases h)
      exact ⟨p, hp⟩

theorem minPair_delMin_perm : ∀ (t : FTree) (p : Nat × Nat), minPair t = some p →
    ((p :: elems (delMin t))).Perm (elems t) := by
  intro t
  induction t with
  | leaf => intro p h; simp [minPair] at h
  | node l b sz r ihl ihr =>
    intro p h
    cases l with
    | leaf =>
      simp only [minPair, Option.some.injEq] at h
      subst h
      simp [delMin, elems]
    | node l1 b1 s1 r1 =>
      have h' : minPair (FTree.node l1 b1 s1 r1) = some p := h
      have hperm := ihl p h'
      show ((p :: elems (delMin (FTree.node l1 b1 s1 r1))) ++ (b, sz) :: elems r).Perm
          (elems (FTree.node l1 b1 s1 r1) ++ (b, sz) :: elems r)
      exact hperm.append_right _

theorem idx_delete_not_mem : ∀ (t : FTree) (a : Nat),
    a ∉ (elems t).map Prod.fst → idx_delete t a = t := by
  intro t
  induction t with
  | leaf => intro a _; rfl
  | node l b bsz r ihl ihr =>
    intro a ha
    simp only [elems, List.map_append, List.map_cons, List.mem_append,
      List.mem_cons] at ha
    push_neg at ha
    obtain ⟨hal, hab, har⟩ := ha
    have hba : ¬ (b = a) := fun h => hab h.symm
    simp only [idx_delete, if_neg hba, ihl a hal, ihr a har]

theorem elems_idx_delete : ∀ (t : FTree) (a sz : Nat),
    ((elems t).map Prod.fst).Nodup → (a, sz) ∈ elems t →
    ((a, sz) :: elems (idx_delete t a)).Perm (elems t) := by
  intro t
  induction t with
  | leaf => intro a sz _ hmem; simp [elems] at hmem
  | node l b bsz r ihl ihr =>
    intro a sz hnd hmem
    have hmap : (elems (FTree.node l b bsz r)).map Prod.fst
        = (elems l).map Prod.fst ++ b :: (elems r).map Prod.fst := by
      simp [elems]
    rw [hmap] at hnd
    have hndl : ((elems l).map Prod.fst).Nodup := (List.nodup_append.mp hnd).1
    have hndcr : (b :: (elems r).map Prod.fst).Nodup := (List.nodup_append.mp hnd).2.1
    have hndr : ((elems r).map Prod.fst).Nodup := (List.nodup_cons.mp hndcr).2
    have hdisj : (List.Disjoint ((elems l).map Prod.fst)
        (b :: (elems r).map Prod.fst)) := (List.nodup_append.mp hnd).2.2
    have hbnotl : b ∉ (elems l).map Prod.fst := fun h => hdisj h (by simp)
    have hbnotr : b ∉ (elems r).map Prod.fst := (List.nodup_cons.mp hndcr).1
    simp only [elems, List.mem_append, List.mem_cons] at hmem
    by_cases hba : b = a
    · subst hba
      have hnotl : (b, sz) ∉ elems l := by
        intro hc
        exact hbnotl (by simpa using List.mem_map_of_mem Prod.fst hc)
      have hnotr : (b, sz) ∉ elems r := by
        intro hc
        exact hbnotr (by simpa using List.mem_map_of_mem Prod.fst hc)
      have hsz : sz = bsz := by
        rcases hmem with hc | hc | hc
        · exact absurd hc hnotl
        · cases hc; rfl
        · exact absurd hc hnotr
      subst hsz
      simp only [idx_delete, eq_self_iff_true, if_true]
      cases l with
      | leaf => simp [elems]
      | node l1 b1 s1 r1 =>
        cases r with
        | leaf =>
          show ((b, sz) :: elems (FTree.node l1 b1 s1 r1)).Perm
              (elems (FTree.node l1 b1 s1 r1) ++ (b, sz) :: elems FTree.leaf)
          simp only [elems, List.append_nil]
          exact (List.perm_append_singleton _ _).symm
        | node l2 b2 s2 r2 =>
          obtain ⟨mp, hmp⟩ := minPair_some (FTree.node l2 b2 s2 r2) (by intro h; cases h)
          obtain ⟨mb, ms⟩ := mp
          show ((b, sz) :: elems (match minPair (FTree.node l2 b2 s2 r2) with
              | some (mb2, ms2) =>
                  FTree.node (FTree.node l1 b1 s1 r1) mb2 ms2
                    (delMin (FTree.node l2 b2 s2 r2))
              | none => FTree.node l1 b1 s1 r1)).Perm
            (elems (FTree.node (FTree.node l1 b1 s1 r1) b sz (FTree.node l2 b2 s2 r2)))
          rw [hmp]
          have hdm := minPair_delMin_perm (FTree.node l2 b2 s2 r2) (mb, ms) hmp
          show ((b, sz) :: (elems (FTree.node l1 b1 s1 r1)
                ++ (mb, ms) :: elems (delMin (FTree.node l2 b2 s2 r2)))).Perm
              (elems (FTree.node l1 b1 s1 r1) ++ (b, sz) :: elems (FTree.node l2 b2 s2 r2))
          have step1 : ((b, sz) :: (elems (FTree.node l1 b1 s1 r1)
                ++ (mb, ms) :: elems (delMin (FTree.node l2 b2 s2 r2)))).Perm
              ((b, sz) :: (elems (FTree.node l1 b1 s1 r1)
                ++ elems (FTree.node l2 b2 s2 r2))) :=
            List.Perm.cons _ (List.Perm.append_left _ hdm)
          have step2 : (elems (FTree.node l1 b1 s1 r1)
                ++ (b, sz) :: elems (FTree.node l2 b2 s2 r2)).Perm
              ((b, sz) :: (elems (FTree.node l1 b1 s1 r1)
                ++ elems (FTree.node l2 b2 s2 r2))) :=
            List.perm_middle
          exact step1.trans step2.symm
    · have hmem2 : (a, sz) ∈ elems l ∨ (a, sz) ∈ elems r := by
        rcases hmem with hc | hc | hc
        · exact Or.inl hc
        · cases hc; exact absurd rfl hba
        · exact Or.inr hc
      simp only [idx_delete, if_neg hba]
      rcases hmem2 with hc | hc
      · have hainl : a ∈ (elems l).map Prod.fst := by
          simpa using List.mem_map_of_mem Prod.fst hc
        have hanotr : a ∉ (elems r).map Prod.fst := by
          intro har
          exact hdisj hainl (by simp [har])
        rw [idx_delete_not_mem r a hanotr]
        show (((a, sz) :: elems (idx_delete l a)) ++ (b, bsz) :: elems r).Perm
            (elems l ++ (b, bsz) :: elems r)
        exact (ihl a sz hndl hc).append_right _
      · have hainr : a ∈ (elems r).map Prod.fst := by
          simpa using List.mem_map_of_mem Prod.fst hc
        have hanotl : a ∉ (elems l).map Prod.fst := by
          intro hal
          exact hdisj hal (by simp [hainr])
        rw [idx_delete_not_mem l a hanotl]
        show ((a, sz) :: (elems l ++ (b, bsz) :: elems (idx_delete r a))).Perm
            (elems l ++ (b, bsz) :: elems r)
        have hstep : (elems l ++ (b, bsz) :: ((a, sz) :: elems (idx_delete r a))).Perm
            (elems l ++ (b, bsz) :: elems r) :=
          List.Perm.append_left _ (List.Perm.cons _ (ihr a sz hndr hc))
        have hmid : (elems l ++ (b, bsz) :: ((a, sz) :: elems (idx_delete r a))).Perm
            ((a, sz) :: (elems l ++ (b, bsz) :: elems (idx_delete r a))) := by
          have := @List.perm_middle _ (a, sz) (elems l ++ [(b, bsz)])
            (elems (idx_delete r a))
          simpa using this
        exact hmid.symm.trans hstep

/-! ### Adjacency, accounting and preservation helpers -/

theorem freeBytesL_append (xs ys : List Block) :
    freeBytesL (xs ++ ys) = freeBytesL xs + freeBytesL ys := by
  simp [freeBytesL]

theorem freeBytesL_cons (b : Block) (bs : List Block) :
    freeBytesL (b :: bs)
      = (if b.alloc = false then b.size else 0) + freeBytesL bs := by
  by_cases h : b.alloc = false
  · simp [freeBytesL, h]
  · simp [freeBytesL, h]

theorem noAdjFree_split (pre : List Block) (b : Block) (post : List Block) :
    noAdjFree (pre ++ b :: post) ↔
      noAdjFree pre ∧ noAdjFree post ∧
      (∀ x ∈ pre.getLast?, x.alloc = true ∨ b.alloc = true) ∧
      (∀ y ∈ post.head?, b.alloc = true ∨ y.alloc = true) := by
  unfold noAdjFree
  rw [List.map_append, List.map_cons, List.chain'_append, List.chain'_cons']
  constructor
  · rintro ⟨h1, ⟨h2, h3⟩, h4⟩
    refine ⟨h1, h3, ?_, ?_⟩
    · intro x hx
      have := h4 x.alloc (by rw [List.getLast?_map, hx]; rfl) b.alloc (by simp)
      exact this
    · intro y hy
      have := h2 y.alloc (by rw [List.head?_map, hy]; rfl)
      exact this
  · rintro ⟨h1, h2, h3, h4⟩
    refine ⟨h1, ⟨?_, h2⟩, ?_⟩
    · intro y hy
      rw [List.head?_map] at hy
      rcases hh : post.head? with _ | z
      · rw [hh] at hy; simp at hy
      · rw [hh] at hy
        simp at hy
        rw [← hy]
        exact h4 z hh
    · intro x hx y hy
      rw [List.getLast?_map] at hx
      simp at hy
      rcases hh : pre.getLast? with _ | z
      · rw [hh] at hx; simp at hx
      · rw [hh] at hx
        simp at hx
        rw [← hx, ← hy]
        exact h3 z hh

/-- Dropping one element of a duplicate-free list keeps it
duplicate-free. -/
theorem nodup_mid (A B : List Nat) (x : Nat) (h : (A ++ x :: B).Nodup) :
    (A ++ B).Nodup := by
  have hs : (A ++ B).Sublist (A ++ x :: B) :=
    List.Sublist.append_left (List.sublist_cons_self x B) A
  exact hs.nodup h

/-- A block found strictly inside the footprint of the middle segment
belongs to the middle segment. -/
theorem locate_in_mid (pre mid post : List Block) (base a j : Nat) (b : Block)
    (hpos : ∀ c ∈ pre ++ mid ++ post, 0 < c.size)
    (hold : locate (pre ++ mid ++ post) base a = some (j, b))
    (h1 : base + sizeSum pre ≤ a) (h2 : a < base + sizeSum pre + sizeSum mid) :
    b ∈ mid := by
  have hposPre : ∀ c ∈ pre, 0 < c.size := fun c hc => hpos c (by simp [hc])
  have hposMid : ∀ c ∈ mid, 0 < c.size := fun c hc => hpos c (by simp [hc])
  have hpre : locate pre base a = none := locate_none_of_ge pre base a hposPre h1
  rw [List.append_assoc, locate_append_right pre (mid ++ post) base a hpre] at hold
  rcases hmp : locate (mid ++ post) (base + sizeSum pre) a with _ | ⟨j1, c1⟩
  · rw [hmp] at hold; simp at hold
  · rw [hmp] at hold
    have hold2 : (some (j1 + pre.length, c1) : Option (Nat × Block)) = some (j, b) := hold
    have hcb : c1 = b := congrArg Prod.snd (Option.some.inj hold2)
    rcases hm : locate mid (base + sizeSum pre) a with _ | ⟨j2, c2⟩
    · rw [locate_append_right mid post (base + sizeSum pre) a hm] at hmp
      rcases hpo : locate post (base + sizeSum pre + sizeSum mid) a with _ | ⟨j3, c3⟩
      · rw [hpo] at hmp; simp at hmp
      · obtain ⟨pp, qq, _, _, haddr⟩ :=
          locate_eq_some post (base + sizeSum pre + sizeSum mid) a j3 c3 hpo
        omega
    · have heq : (some (j2, c2) : Option (Nat × Block)) = some (j1, c1) := by
        rw [← locate_append_left mid post (base + sizeSum pre) a j2 c2 hm, hmp]
      have hc : c2 = c1 := congrArg Prod.snd (Option.some.inj heq)
      obtain ⟨pp, qq, hsplit, _, _⟩ :=
        locate_eq_some mid (base + sizeSum pre) a j2 c2 hm
      rw [← hcb, ← hc, hsplit]
      simp

/-- Replacing the middle segment of the heap by one with the same
total footprint does not disturb the blocks found before or after
it. -/
theorem locate_preserve (pre mid mid2 post : List Block) (base a j : Nat) (b : Block)
    (hsz : sizeSum mid = sizeSum mid2)
    (hposPre : ∀ c ∈ pre, 0 < c.size)
    (hposMid : ∀ c ∈ mid, 0 < c.size)
    (hposMid2 : ∀ c ∈ mid2, 0 < c.size)
    (hold : locate (pre ++ mid ++ post) base a = some (j, b))
    (hout : a < base + sizeSum pre ∨ base + sizeSum pre + sizeSum mid ≤ a) :
    ∃ j2, locate (pre ++ mid2 ++ post) base a = some (j2, b) := by
  rw [List.append_assoc] at hold
  rcases hout with hlt | hge
  · rcases hp : locate pre base a with _ | ⟨i, c⟩
    · rw [locate_append_right pre (mid ++ post) base a hp] at hold
      rcases hmp : locate (mid ++ post) (base + sizeSum pre) a with _ | ⟨j1, c1⟩
      · rw [hmp] at hold; simp at hold
      · obtain ⟨pp, qq, _, _, haddr⟩ :=
          locate_eq_some (mid ++ post) (base + sizeSum pre) a j1 c1 hmp
        omega
    · have heq : (some (i, c) : Option (Nat × Block)) = some (j, b) := by
        rw [← locate_append_left pre (mid ++ post) base a i c hp, hold]
      have hcb : c = b := congrArg Prod.snd (Option.some.inj heq)
      refine ⟨i, ?_⟩
      rw [List.append_assoc]
      rw [← hcb]
      exact locate_append_left pre (mid2 ++ post) base a i c hp
  · have hp : locate pre base a = none :=
      locate_none_of_ge pre base a hposPre (by omega)
    rw [locate_append_right pre (mid ++ post) base a hp] at hold
    rcases hmp : locate (mid ++ post) (base + sizeSum pre) a with _ | ⟨j1, c1⟩
    · rw [hmp] at hold; simp at hold
    · rw [hmp] at hold
      have hold2 : (some (j1 + pre.length, c1) : Option (Nat × Block)) = some (j, b) := hold
      have hcb : c1 = b := congrArg Prod.snd (Option.some.inj hold2)
      have hm : locate mid (base + sizeSum pre) a = none :=
        locate_none_of_ge mid (base + sizeSum pre) a hposMid (by omega)
      rw [locate_append_right mid post (base + sizeSum pre) a hm] at hmp
      rcases hpo : locate post (base + sizeSum pre + sizeSum mid) a with _ | ⟨j3, c3⟩
      · rw [hpo] at hmp; simp at hmp
      · rw [hpo] at hmp
        have hmp2 : (some (j3 + mid.length, c3) : Option (Nat × Block)) = some (j1, c1) := hmp
        have hc31 : c3 = c1 := congrArg Prod.snd (Option.some.inj hmp2)
        have hm2 : locate mid2 (base + sizeSum pre) a = none :=
          locate_none_of_ge mid2 (base + sizeSum pre) a hposMid2 (by omega)
        refine ⟨j3 + mid2.length + pre.length, ?_⟩
        rw [List.append_assoc,
          locate_append_right pre (mid2 ++ post) base a hp,
          locate_append_right mid2 post (base + sizeSum pre) a hm2,
          ← hsz, hpo]
        simp [hc31, hcb]

end MMAlloc

namespace MMAlloc

set_option maxHeartbeats 1000000

theorem coalesce_spec (mm : MM) (pre : List Block) (blk : Block) (post : List Block)
    (res : Nat) (out : MM)
    (hbs : mm.blocks = pre ++ blk :: post)
    (hfree : blk.alloc = false)
    (hgood : goodBlocks mm.blocks)
    (hpre : noAdjFree pre) (hpost : noAdjFree post)
    (htree : (elems mm.tree).Perm
       (freePairs pre heapBase ++ freePairs post (heapBase + sizeSum pre + blk.size)))
    (hco : coalesce mm (heapBase + sizeSum pre) = (res, out)) :
    ∃ pre2 merged post2,
      out.blocks = pre2 ++ merged :: post2 ∧
      res = heapBase + sizeSum pre2 ∧
      merged.alloc = false ∧ blk.size ≤ merged.size ∧
      goodBlocks out.blocks ∧ noAdjFree out.blocks ∧
      (elems out.tree).Perm (freePairs out.blocks heapBase) ∧
      out.used = mm.used ∧ out.limit = mm.limit ∧
      sizeSum out.blocks = sizeSum mm.blocks ∧
      freeBytesL out.blocks = freeBytesL mm.blocks ∧
      (∀ a j b, locate mm.blocks heapBase a = some (j, b) → b.alloc = true →
        ∃ j2, locate out.blocks heapBase a = some (j2, b)) := by
  have hpos : ∀ c ∈ mm.blocks, 0 < c.size := by
    intro c hc
    have := (hgood c hc).1
    unfold MIN_BLK_SIZE WSIZE at this
    omega
  have hposPre : ∀ c ∈ pre, 0 < c.size := fun c hc => hpos c (by rw [hbs]; simp [hc])
  have hloc : locate mm.blocks heapBase (heapBase + sizeSum pre)
      = some (pre.length, blk) := by
    rw [hbs]; exact locate_at pre heapBase blk post hposPre
  have hnb : mm.blocks[pre.length + 1]? = post.head? := by
    rw [hbs]; exact getElem?_succ_at pre blk post
  have hpb : (if pre.length = 0 then none else mm.blocks[pre.length - 1]?)
      = pre.getLast? := by
    rcases List.eq_nil_or_concat pre with h | ⟨pre1, pb, h⟩
    · subst h; simp
    · rw [List.concat_eq_append] at h
      subst h
      have hlen : (pre1 ++ [pb]).length = pre1.length + 1 := by simp
      rw [hlen]
      rw [if_neg (by omega)]
      have : mm.blocks = pre1 ++ pb :: (blk :: post) := by
        rw [hbs]; simp
      rw [this, show pre1.length + 1 - 1 = pre1.length by omega,
        getElem?_at pre1 pb (blk :: post)]
      simp
  simp only [coalesce, hloc] at hco
  simp only [hpb, hnb] at hco
  have hnodupFull : ((freePairs mm.blocks heapBase).map Prod.fst).Nodup :=
    freePairs_nodup mm.blocks heapBase hpos
  have h4 : freePairs mm.blocks heapBase
      = freePairs pre heapBase
        ++ (heapBase + sizeSum pre, blk.size)
          :: freePairs post (heapBase + sizeSum pre + blk.size) := by
    rw [hbs, freePairs_split, if_pos hfree]
    simp
  have hndT : ((elems mm.tree).map Prod.fst).Nodup := by
    rw [List.Perm.nodup_iff (htree.map Prod.fst)]
    rw [h4] at hnodupFull
    simp only [List.map_append, List.map_cons] at hnodupFull ⊢
    exact nodup_mid _ _ _ hnodupFull
  cases hPA : pre.getLast?.elim true Block.alloc with
  | true =>
    cases hNA : post.head?.elim true Block.alloc with
    | true =>
      -- no free neighbour: case 1 of the source, only rb_insert(bp)
      rw [if_neg (by simp [hPA, hNA]), if_neg (by simp [hPA]),
        if_neg (by simp [hPA])] at hco
      injection hco with h1 h2
      subst h1
      subst h2
      refine ⟨pre, blk, post, by simp [hbs], rfl, hfree, le_refl _, ?_, ?_, ?_, rfl, rfl,
        by simp [hbs], by simp [hbs], ?_⟩
      · simp only [hbs] at hgood ⊢
        exact hgood
      · simp only [hbs]
        rw [noAdjFree_split]
        refine ⟨hpre, hpost, ?_, ?_⟩
        · intro x hx
          left
          rw [hx] at hPA
          simpa using hPA
        · intro y hy
          right
          rw [hy] at hNA
          simpa using hNA
      · simp only []
        have h1 : (elems (idx_insert mm.tree (heapBase + sizeSum pre) blk.size)).Perm
            ((heapBase + sizeSum pre, blk.size) :: elems mm.tree) :=
          elems_idx_insert mm.tree _ _
        have h2 : ((heapBase + sizeSum pre, blk.size) :: elems mm.tree).Perm
            ((heapBase + sizeSum pre, blk.size) ::
              (freePairs pre heapBase
                ++ freePairs post (heapBase + sizeSum pre + blk.size))) :=
          htree.cons _
        have h3 : (freePairs pre heapBase
              ++ (heapBase + sizeSum pre, blk.size)
                :: freePairs post (heapBase + sizeSum pre + blk.size)).Perm
            ((heapBase + sizeSum pre, blk.size) ::
              (freePairs pre heapBase
                ++ freePairs post (heapBase + sizeSum pre + blk.size))) :=
          List.perm_middle
        have h4 : freePairs mm.blocks heapBase
            = freePairs pre heapBase
              ++ (heapBase + sizeSum pre, blk.size)
                :: freePairs post (heapBase + sizeSum pre + blk.size) := by
          rw [hbs, freePairs_split, if_pos hfree]
          simp
        rw [h4]
        exact (h1.trans h2).trans h3.symm
      · intro a j b hold halloc
        exact ⟨j, hold⟩
    | false =>
      -- the following block is free: case 2 of the source, absorb it
      cases post with
      | nil => simp at hNA
      | cons nb post1 =>
        simp only [List.head?_cons, Option.elim_some] at hNA hnb hco
        set mrg : Block :=
          { size := blk.size + nb.size, alloc := false, color := 1,
            data := blk.data ++ metaPad ++ metaPad ++ nb.data } with hmrg
        rw [if_pos (And.intro hPA hNA)] at hco
        injection hco with h1 h2
        subst h1
        subst h2
        have hblkmem : blk ∈ mm.blocks := by rw [hbs]; simp
        have hnbmem : nb ∈ mm.blocks := by rw [hbs]; simp
        obtain ⟨hblk24, hblk8, hblkd⟩ := hgood blk hblkmem
        obtain ⟨hnb24, hnb8, hnbd⟩ := hgood nb hnbmem
        have h24 : MIN_BLK_SIZE = 24 := rfl
        have hblocks : (mm.blocks.set pre.length mrg).eraseIdx (pre.length + 1)
            = pre ++ mrg :: post1 := by
          rw [hbs, set_at pre blk mrg (nb :: post1)]
          rw [show pre ++ mrg :: nb :: post1 = (pre ++ [mrg]) ++ nb :: post1 by simp,
            show pre.length + 1 = (pre ++ [mrg]).length by simp,
            eraseIdx_at (pre ++ [mrg]) nb post1]
          simp
        have hfpPost : freePairs (nb :: post1) (heapBase + sizeSum pre + blk.size)
            = (heapBase + sizeSum pre + blk.size, nb.size)
              :: freePairs post1 (heapBase + sizeSum pre + blk.size + nb.size) := by
          simp [freePairs, hNA]
        have hmem : (heapBase + sizeSum pre + blk.size, nb.size) ∈ elems mm.tree := by
          rw [htree.mem_iff, hfpPost]
          simp
        have hdel := elems_idx_delete mm.tree (heapBase + sizeSum pre + blk.size)
          nb.size hndT hmem
        have hstep : (elems mm.tree).Perm
            ((heapBase + sizeSum pre + blk.size, nb.size)
              :: (freePairs pre heapBase
                ++ freePairs post1 (heapBase + sizeSum pre + blk.size + nb.size))) := by
          refine htree.trans ?_
          rw [hfpPost]
          exact List.perm_middle
        have ht1 : (elems (idx_delete mm.tree (heapBase + sizeSum pre + blk.size))).Perm
            (freePairs pre heapBase
              ++ freePairs post1 (heapBase + sizeSum pre + blk.size + nb.size)) :=
          (hdel.trans hstep).cons_inv
        have hpost1 := (noAdjFree_split [] nb post1).mp hpost
        refine ⟨pre, mrg, post1, hblocks, rfl, rfl, by rw [hmrg]; simp, ?_, ?_, ?_,
          rfl, rfl, ?_, ?_, ?_⟩
        · -- goodBlocks
          rw [hblocks]
          intro c hc
          rcases List.mem_append.mp hc with hcp | hcm
          · exact hgood c (by rw [hbs]; simp [hcp])
          · rcases List.mem_cons.mp hcm with hce | hcq
            · subst hce
              rw [hmrg]
              refine ⟨by simp [h24] at hblk24 ⊢; omega, by simp; omega, ?_⟩
              simp [metaPad, List.length_append, hblkd, hnbd, h24] at hblk24 hnb24 ⊢
              omega
            · exact hgood c (by rw [hbs]; simp [hcq])
        · -- noAdjFree
          rw [hblocks, noAdjFree_split]
          refine ⟨hpre, hpost1.2.1, ?_, ?_⟩
          · intro x hx
            left
            rw [hx] at hPA
            simpa using hPA
          · intro y hy
            right
            rcases hpost1.2.2.2 y hy with hh | hh
            · rw [hNA] at hh; cases hh
            · exact hh
        · -- index matches the free blocks
          rw [hblocks]
          have hins := elems_idx_insert
            (idx_delete mm.tree (heapBase + sizeSum pre + blk.size))
            (heapBase + sizeSum pre) (blk.size + nb.size)
          have hfinal : (elems (idx_insert
              (idx_delete mm.tree (heapBase + sizeSum pre + blk.size))
              (heapBase + sizeSum pre) (blk.size + nb.size))).Perm
              ((heapBase + sizeSum pre, blk.size + nb.size)
                :: (freePairs pre heapBase
                  ++ freePairs post1 (heapBase + sizeSum pre + blk.size + nb.size))) :=
            hins.trans (ht1.cons _)
          have htgt : freePairs (pre ++ mrg :: post1) heapBase
              = freePairs pre heapBase
                ++ (heapBase + sizeSum pre, blk.size + nb.size)
                  :: freePairs post1 (heapBase + sizeSum pre + blk.size + nb.size) := by
            rw [freePairs_split, hmrg]
            simp
            rw [show heapBase + sizeSum pre + (blk.size + nb.size)
              = heapBase + sizeSum pre + blk.size + nb.size by omega]
          rw [htgt]
          exact hfinal.trans List.perm_middle.symm
        · -- sizeSum
          rw [hblocks, hbs, hmrg]
          simp [sizeSum_append, sizeSum_cons]
          omega
        · -- freeBytesL
          rw [hblocks, hbs, hmrg]
          simp [freeBytesL_append, freeBytesL_cons, hfree, hNA]
          omega
        · -- allocated blocks persist
          intro a j b hold halloc
          have hmidform : mm.blocks = pre ++ [blk, nb] ++ post1 := by rw [hbs]; simp
          rw [hmidform] at hold
          have hposMid : ∀ c ∈ [blk, nb], 0 < c.size := by
            intro c hc
            simp at hc
            rcases hc with rfl | rfl
            · simp [h24] at hblk24; omega
            · simp [h24] at hnb24; omega
          have htri : a < heapBase + sizeSum pre
              ∨ heapBase + sizeSum pre + sizeSum [blk, nb] ≤ a := by
            by_contra hcon
            push_neg at hcon
            have hb := locate_in_mid pre [blk, nb] post1 heapBase a j b
              (by rw [← hmidform]; exact hpos) hold (by omega) (by omega)
            simp at hb
            rcases hb with rfl | rfl
            · rw [halloc] at hfree; cases hfree
            · rw [halloc] at hNA; cases hNA
          obtain ⟨j2, hj2⟩ := locate_preserve pre [blk, nb] [mrg] post1 heapBase a j b
            (by rw [hmrg]; simp [sizeSum]) hposPre hposMid
            (by intro c hc
                simp at hc
                subst hc
                rw [hmrg]
                simp [h24] at hblk24 ⊢
                omega)
            hold htri
          refine ⟨j2, ?_⟩
          rw [hblocks, show pre ++ mrg :: post1 = pre ++ [mrg] ++ post1 by simp]
          exact hj2
  | false =>
    cases hNA : post.head?.elim true Block.alloc with
    | true =>
      -- the previous block is free: case 3 of the source, absorb it
      rcases List.eq_nil_or_concat pre with hnil | ⟨pre1, pb, hcat⟩
      · subst hnil; simp at hPA
      · rw [List.concat_eq_append] at hcat
        subst hcat
        rw [List.getLast?_concat] at hPA
        simp only [Option.elim_some] at hPA
        simp only [List.getLast?_concat, Option.elim_some] at hco
        have hSig : sizeSum (pre1 ++ [pb]) = sizeSum pre1 + pb.size := by
          simp [sizeSum_append, sizeSum_cons, sizeSum_nil]
        have hsub : heapBase + (sizeSum pre1 + pb.size) - pb.size
            = heapBase + sizeSum pre1 := by omega
        have hlen0 : (pre1 ++ [pb]).length = pre1.length + 1 := by simp
        simp only [hSig, hsub, hlen0, Nat.add_sub_cancel] at hco
        rw [if_neg (by simp [hPA]), if_pos (And.intro hPA hNA)] at hco
        set mrg : Block :=
          { size := blk.size + pb.size, alloc := false, color := 1,
            data := pb.data ++ metaPad ++ metaPad ++ blk.data } with hmrg
        injection hco with h1 h2
        subst h1
        subst h2
        have hbs2 : mm.blocks = pre1 ++ pb :: (blk :: post) := by rw [hbs]; simp
        have hblkmem : blk ∈ mm.blocks := by rw [hbs]; simp
        have hpbmem : pb ∈ mm.blocks := by rw [hbs2]; simp
        obtain ⟨hblk24, hblk8, hblkd⟩ := hgood blk hblkmem
        obtain ⟨hpb24, hpb8, hpbd⟩ := hgood pb hpbmem
        have h24 : MIN_BLK_SIZE = 24 := rfl
        have hblocks : (mm.blocks.set pre1.length mrg).eraseIdx (pre1.length + 1)
            = pre1 ++ mrg :: post := by
          rw [hbs2, set_at pre1 pb mrg (blk :: post)]
          rw [show pre1 ++ mrg :: blk :: post = (pre1 ++ [mrg]) ++ blk :: post by simp,
            show pre1.length + 1 = (pre1 ++ [mrg]).length by simp,
            eraseIdx_at (pre1 ++ [mrg]) blk post]
          simp
        have hfpPre : freePairs (pre1 ++ [pb]) heapBase
            = freePairs pre1 heapBase
              ++ [(heapBase + sizeSum pre1, pb.size)] := by
          rw [show (pre1 ++ [pb] : List Block) = pre1 ++ pb :: [] by simp,
            freePairs_split, if_pos hPA]
          simp [freePairs]
        have hmem : (heapBase + sizeSum pre1, pb.size) ∈ elems mm.tree := by
          rw [htree.mem_iff, hfpPre]
          simp
        have hdel := elems_idx_delete mm.tree (heapBase + sizeSum pre1)
          pb.size hndT hmem
        have hstep : (elems mm.tree).Perm
            ((heapBase + sizeSum pre1, pb.size)
              :: (freePairs pre1 heapBase
                ++ freePairs post (heapBase + sizeSum (pre1 ++ [pb]) + blk.size))) := by
          refine htree.trans ?_
          rw [hfpPre]
          rw [show (freePairs pre1 heapBase ++ [(heapBase + sizeSum pre1, pb.size)])
                ++ freePairs post (heapBase + sizeSum (pre1 ++ [pb]) + blk.size)
              = freePairs pre1 heapBase ++ (heapBase + sizeSum pre1, pb.size)
                :: freePairs post (heapBase + sizeSum (pre1 ++ [pb]) + blk.size) by simp]
          exact List.perm_middle
        have ht1 : (elems (idx_delete mm.tree (heapBase + sizeSum pre1))).Perm
            (freePairs pre1 heapBase
              ++ freePairs post (heapBase + sizeSum (pre1 ++ [pb]) + blk.size)) :=
          (hdel.trans hstep).cons_inv
        have hpre1 := (noAdjFree_split pre1 pb []).mp (by simpa using hpre)
        refine ⟨pre1, mrg, post, hblocks, rfl, rfl, by rw [hmrg]; simp, ?_, ?_, ?_,
          rfl, rfl, ?_, ?_, ?_⟩
        · -- goodBlocks
          rw [hblocks]
          intro c hc
          rcases List.mem_append.mp hc with hcp | hcm
          · exact hgood c (by rw [hbs2]; simp [hcp])
          · rcases List.mem_cons.mp hcm with hce | hcq
            · subst hce
              rw [hmrg]
              refine ⟨by simp [h24] at hblk24 ⊢; omega, by simp; omega, ?_⟩
              simp [metaPad, List.length_append, hblkd, hpbd, h24] at hblk24 hpb24 ⊢
              omega
            · exact hgood c (by rw [hbs]; simp [hcq])
        · -- noAdjFree
          rw [hblocks, noAdjFree_split]
          refine ⟨hpre1.1, hpost, ?_, ?_⟩
          · intro x hx
            left
            rcases hpre1.2.2.1 x hx with hh | hh
            · exact hh
            · rw [hPA] at hh; cases hh
          · intro y hy
            right
            rw [hy] at hNA
            simpa using hNA
        · -- index matches the free blocks
          rw [hblocks]
          have hins := elems_idx_insert
            (idx_delete mm.tree (heapBase + sizeSum pre1))
            (heapBase + sizeSum pre1) (blk.size + pb.size)
          have hfinal : (elems (idx_insert
              (idx_delete mm.tree (heapBase + sizeSum pre1))
              (heapBase + sizeSum pre1) (blk.size + pb.size))).Perm
              ((heapBase + sizeSum pre1, blk.size + pb.size)
                :: (freePairs pre1 heapBase
                  ++ freePairs post (heapBase + sizeSum (pre1 ++ [pb]) + blk.size))) :=
            hins.trans (ht1.cons _)
          have htgt : freePairs (pre1 ++ mrg :: post) heapBase
              = freePairs pre1 heapBase
                ++ (heapBase + sizeSum pre1, blk.size + pb.size)
                  :: freePairs post (heapBase + sizeSum (pre1 ++ [pb]) + blk.size) := by
            rw [freePairs_split, hmrg]
            simp
            rw [hSig]
            rw [show heapBase + sizeSum pre1 + (blk.size + pb.size)
              = heapBase + (sizeSum pre1 + pb.size) + blk.size by omega]
          rw [htgt]
          exact hfinal.trans List.perm_middle.symm
        · -- sizeSum
          rw [hblocks, hbs2, hmrg]
          simp [sizeSum_append, sizeSum_cons]
          omega
        · -- freeBytesL
          rw [hblocks, hbs2, hmrg]
          simp [freeBytesL_append, freeBytesL_cons, hfree, hPA]
          omega
        · -- allocated blocks persist
          intro a j b hold halloc
          have hmidform : mm.blocks = pre1 ++ [pb, blk] ++ post := by rw [hbs2]; simp
          rw [hmidform] at hold
          have hposPre1 : ∀ c ∈ pre1, 0 < c.size := by
            intro c hc
            exact hpos c (by rw [hbs2]; simp [hc])
          have hposMid : ∀ c ∈ [pb, blk], 0 < c.size := by
            intro c hc
            simp at hc
            rcases hc with rfl | rfl
            · simp [h24] at hpb24; omega
            · simp [h24] at hblk24; omega
          have htri : a < heapBase + sizeSum pre1
              ∨ heapBase + sizeSum pre1 + sizeSum [pb, blk] ≤ a := by
            by_contra hcon
            push_neg at hcon
            have hb := locate_in_mid pre1 [pb, blk] post heapBase a j b
              (by rw [← hmidform]; exact hpos) hold (by omega) (by omega)
            simp at hb
            rcases hb with rfl | rfl
            · rw [halloc] at hPA; cases hPA
            · rw [halloc] at hfree; cases hfree
          obtain ⟨j2, hj2⟩ := locate_preserve pre1 [pb, blk] [mrg] post heapBase a j b
            (by rw [hmrg]; simp [sizeSum]; omega) hposPre1 hposMid
            (by intro c hc
                simp at hc
                subst hc
                rw [hmrg]
                simp [h24] at hblk24 ⊢
                omega)
            hold htri
          refine ⟨j2, ?_⟩
          rw [hblocks, show pre1 ++ mrg :: post = pre1 ++ [mrg] ++ post by simp]
          exact hj2
    | false =>
      -- both neighbours are free: case 4 of the source, absorb both
      rcases List.eq_nil_or_concat pre with hnil | ⟨pre1, pb, hcat⟩
      · subst hnil; simp at hPA
      · rw [List.concat_eq_append] at hcat
        subst hcat
        cases post with
        | nil => simp at hNA
        | cons nb post1 =>
          rw [List.getLast?_concat] at hPA
          simp only [Option.elim_some] at hPA
          simp only [List.head?_cons, Option.elim_some] at hNA hnb
          simp only [List.getLast?_concat, List.head?_cons, Option.elim_some] at hco
          have hSig : sizeSum (pre1 ++ [pb]) = sizeSum pre1 + pb.size := by
            simp [sizeSum_append, sizeSum_cons, sizeSum_nil]
          have hsub : heapBase + (sizeSum pre1 + pb.size) - pb.size
              = heapBase + sizeSum pre1 := by omega
          have hlen0 : (pre1 ++ [pb]).length = pre1.length + 1 := by simp
          simp only [hSig, hsub, hlen0, Nat.add_sub_cancel] at hco
          rw [hSig] at htree
          rw [if_neg (by simp [hPA]), if_neg (by simp [hNA]),
            if_pos (And.intro hPA hNA)] at hco
          set mrg : Block :=
            { size := blk.size + pb.size + nb.size, alloc := false, color := 1,
              data := pb.data ++ metaPad ++ metaPad ++ blk.data
                ++ metaPad ++ metaPad ++ nb.data } with hmrg
          injection hco with h1 h2
          subst h1
          subst h2
          have hbs2 : mm.blocks = pre1 ++ pb :: (blk :: nb :: post1) := by
            rw [hbs]; simp
          have hblkmem : blk ∈ mm.blocks := by rw [hbs]; simp
          have hpbmem : pb ∈ mm.blocks := by rw [hbs2]; simp
          have hnbmem : nb ∈ mm.blocks := by rw [hbs]; simp
          obtain ⟨hblk24, hblk8, hblkd⟩ := hgood blk hblkmem
          obtain ⟨hpb24, hpb8, hpbd⟩ := hgood pb hpbmem
          obtain ⟨hnb24, hnb8, hnbd⟩ := hgood nb hnbmem
          have h24 : MIN_BLK_SIZE = 24 := rfl
          have hblocks : ((mm.blocks.set pre1.length mrg).eraseIdx
                (pre1.length + 1)).eraseIdx (pre1.length + 1)
              = pre1 ++ mrg :: post1 := by
            rw [hbs2, set_at pre1 pb mrg (blk :: nb :: post1)]
            rw [show pre1 ++ mrg :: blk :: nb :: post1
                = (pre1 ++ [mrg]) ++ blk :: nb :: post1 by simp,
              show pre1.length + 1 = (pre1 ++ [mrg]).length by simp,
              eraseIdx_at (pre1 ++ [mrg]) blk (nb :: post1),
              eraseIdx_at (pre1 ++ [mrg]) nb post1]
            simp
          have hfpPre : freePairs (pre1 ++ [pb]) heapBase
              = freePairs pre1 heapBase
                ++ [(heapBase + sizeSum pre1, pb.size)] := by
            rw [show (pre1 ++ [pb] : List Block) = pre1 ++ pb :: [] by simp,
              freePairs_split, if_pos hPA]
            simp [freePairs]
          have hfpPost : freePairs (nb :: post1)
                (heapBase + (sizeSum pre1 + pb.size) + blk.size)
              = (heapBase + (sizeSum pre1 + pb.size) + blk.size, nb.size)
                :: freePairs post1
                  (heapBase + (sizeSum pre1 + pb.size) + blk.size + nb.size) := by
            simp [freePairs, hNA]
          have hmem1 : (heapBase + sizeSum pre1, pb.size) ∈ elems mm.tree := by
            rw [htree.mem_iff, hfpPre]
            simp
          have hdel1 := elems_idx_delete mm.tree (heapBase + sizeSum pre1)
            pb.size hndT hmem1
          have hstep1 : (elems mm.tree).Perm
              ((heapBase + sizeSum pre1, pb.size)
                :: (freePairs pre1 heapBase
                  ++ freePairs (nb :: post1)
                    (heapBase + (sizeSum pre1 + pb.size) + blk.size))) := by
            refine htree.trans ?_
            rw [hfpPre]
            rw [show (freePairs pre1 heapBase ++ [(heapBase + sizeSum pre1, pb.size)])
                  ++ freePairs (nb :: post1)
                    (heapBase + (sizeSum pre1 + pb.size) + blk.size)
                = freePairs pre1 heapBase ++ (heapBase + sizeSum pre1, pb.size)
                  :: freePairs (nb :: post1)
                    (heapBase + (sizeSum pre1 + pb.size) + blk.size) by simp]
            exact List.perm_middle
          have ht1 : (elems (idx_delete mm.tree (heapBase + sizeSum pre1))).Perm
              (freePairs pre1 heapBase
                ++ freePairs (nb :: post1)
                  (heapBase + (sizeSum pre1 + pb.size) + blk.size)) :=
            (hdel1.trans hstep1).cons_inv
          have hndT1 : ((elems (idx_delete mm.tree
              (heapBase + sizeSum pre1))).map Prod.fst).Nodup := by
            rw [List.Perm.nodup_iff (ht1.map Prod.fst)]
            rw [h4, hfpPre, hSig] at hnodupFull
            simp only [List.map_append, List.map_cons, List.append_assoc,
              List.singleton_append, List.cons_append] at hnodupFull ⊢
            have step1 := nodup_mid ((freePairs pre1 heapBase).map Prod.fst) _ _
              hnodupFull
            exact nodup_mid _ _ _ step1
          have hmem2 : (heapBase + (sizeSum pre1 + pb.size) + blk.size, nb.size)
              ∈ elems (idx_delete mm.tree (heapBase + sizeSum pre1)) := by
            rw [ht1.mem_iff, hfpPost]
            simp
          have hdel2 := elems_idx_delete (idx_delete mm.tree (heapBase + sizeSum pre1))
            (heapBase + (sizeSum pre1 + pb.size) + blk.size) nb.size hndT1 hmem2
          have hstep2 : (elems (idx_delete mm.tree (heapBase + sizeSum pre1))).Perm
              ((heapBase + (sizeSum pre1 + pb.size) + blk.size, nb.size)
                :: (freePairs pre1 heapBase
                  ++ freePairs post1
                    (heapBase + (sizeSum pre1 + pb.size) + blk.size + nb.size))) := by
            refine ht1.trans ?_
            rw [hfpPost]
            exact List.perm_middle
          have ht2 : (elems (idx_delete (idx_delete mm.tree (heapBase + sizeSum pre1))
                (heapBase + (sizeSum pre1 + pb.size) + blk.size))).Perm
              (freePairs pre1 heapBase
                ++ freePairs post1
                  (heapBase + (sizeSum pre1 + pb.size) + blk.size + nb.size)) :=
            (hdel2.trans hstep2).cons_inv
          have hpre1 := (noAdjFree_split pre1 pb []).mp (by simpa using hpre)
          have hpost1 := (noAdjFree_split [] nb post1).mp hpost
          refine ⟨pre1, mrg, post1, hblocks, rfl, rfl,
            by rw [hmrg]; show blk.size ≤ blk.size + pb.size + nb.size; omega,
            ?_, ?_, ?_, rfl, rfl, ?_, ?_, ?_⟩
          · -- goodBlocks
            rw [hblocks]
            intro c hc
            rcases List.mem_append.mp hc with hcp | hcm
            · exact hgood c (by rw [hbs2]; simp [hcp])
            · rcases List.mem_cons.mp hcm with hce | hcq
              · subst hce
                rw [hmrg]
                refine ⟨by simp [h24] at hblk24 ⊢; omega, by simp; omega, ?_⟩
                simp [metaPad, List.length_append, hblkd, hpbd, hnbd, h24]
                  at hblk24 hpb24 hnb24 ⊢
                omega
              · exact hgood c (by rw [hbs]; simp [hcq])
          · -- noAdjFree
            rw [hblocks, noAdjFree_split]
            refine ⟨hpre1.1, hpost1.2.1, ?_, ?_⟩
            · intro x hx
              left
              rcases hpre1.2.2.1 x hx with hh | hh
              · exact hh
              · rw [hPA] at hh; cases hh
            · intro y hy
              right
              rcases hpost1.2.2.2 y hy with hh | hh
              · rw [hNA] at hh; cases hh
              · exact hh
          · -- index matches the free blocks
            rw [hblocks]
            have hins := elems_idx_insert
              (idx_delete (idx_delete mm.tree (heapBase + sizeSum pre1))
                (heapBase + (sizeSum pre1 + pb.size) + blk.size))
              (heapBase + sizeSum pre1) (blk.size + pb.size + nb.size)
            have hfinal := hins.trans (ht2.cons
              (heapBase + sizeSum pre1, blk.size + pb.size + nb.size))
            have htgt : freePairs (pre1 ++ mrg :: post1) heapBase
                = freePairs pre1 heapBase
                  ++ (heapBase + sizeSum pre1, blk.size + pb.size + nb.size)
                    :: freePairs post1
                      (heapBase + (sizeSum pre1 + pb.size) + blk.size + nb.size) := by
              rw [freePairs_split, hmrg]
              simp
              rw [show heapBase + sizeSum pre1 + (blk.size + pb.size + nb.size)
                = heapBase + (sizeSum pre1 + pb.size) + blk.size + nb.size by omega]
            rw [htgt]
            exact hfinal.trans List.perm_middle.symm
          · -- sizeSum
            rw [hblocks, hbs2, hmrg]
            simp [sizeSum_append, sizeSum_cons]
            omega
          · -- freeBytesL
            rw [hblocks, hbs2, hmrg]
            simp [freeBytesL_append, freeBytesL_cons, hfree, hPA, hNA]
            omega
          · -- allocated blocks persist
            intro a j b hold halloc
            have hmidform : mm.blocks = pre1 ++ [pb, blk, nb] ++ post1 := by
              rw [hbs2]; simp
            rw [hmidform] at hold
            have hposPre1 : ∀ c ∈ pre1, 0 < c.size := by
              intro c hc
              exact hpos c (by rw [hbs2]; simp [hc])
            have hposMid : ∀ c ∈ [pb, blk, nb], 0 < c.size := by
              intro c hc
              simp at hc
              rcases hc with rfl | rfl | rfl
              · simp [h24] at hpb24; omega
              · simp [h24] at hblk24; omega
              · simp [h24] at hnb24; omega
            have htri : a < heapBase + sizeSum pre1
                ∨ heapBase + sizeSum pre1 + sizeSum [pb, blk, nb] ≤ a := by
              by_contra hcon
              push_neg at hcon
              have hb := locate_in_mid pre1 [pb, blk, nb] post1 heapBase a j b
                (by rw [← hmidform]; exact hpos) hold (by omega) (by omega)
              simp at hb
              rcases hb with rfl | rfl | rfl
              · rw [halloc] at hPA; cases hPA
              · rw [halloc] at hfree; cases hfree
              · rw [halloc] at hNA; cases hNA
            obtain ⟨j2, hj2⟩ := locate_preserve pre1 [pb, blk, nb] [mrg] post1
              heapBase a j b
              (by rw [hmrg]; simp [sizeSum]; omega) hposPre1 hposMid
              (by intro c hc
                  simp at hc
                  subst hc
                  rw [hmrg]
                  simp [h24] at hblk24 ⊢
                  omega)
              hold htri
            refine ⟨j2, ?_⟩
            rw [hblocks, show pre1 ++ mrg :: post1 = pre1 ++ [mrg] ++ post1 by simp]
            exact hj2

end MMAlloc

namespace MMAlloc

set_option maxHeartbeats 1000000

theorem place_spec (mm : MM) (pre : List Block) (blk : Block) (post : List Block)
    (asize : Nat) (out : MM)
    (hbs : mm.blocks = pre ++ blk :: post)
    (hfree : blk.alloc = false)
    (hgood : goodBlocks mm.blocks)
    (hadj : noAdjFree mm.blocks)
    (htree : (elems mm.tree).Perm (freePairs mm.blocks heapBase))
    (ha8 : asize % 8 = 0) (hamin : MIN_BLK_SIZE ≤ asize) (hale : asize ≤ blk.size)
    (hpl : place mm (heapBase + sizeSum pre) asize = out) :
    ∃ b1 rest,
      out.blocks = pre ++ b1 :: (rest ++ post) ∧
      locate out.blocks heapBase (heapBase + sizeSum pre) = some (pre.length, b1) ∧
      b1.alloc = true ∧ asize ≤ b1.size ∧ (b1.size = asize ∨ b1.size = blk.size) ∧
      goodBlocks out.blocks ∧ noAdjFree out.blocks ∧
      (elems out.tree).Perm (freePairs out.blocks heapBase) ∧
      out.used = mm.used ∧ out.limit = mm.limit ∧
      sizeSum out.blocks = sizeSum mm.blocks ∧
      freeBytesL mm.blocks = freeBytesL out.blocks + b1.size ∧
      (∀ a j b, locate mm.blocks heapBase a = some (j, b) → b.alloc = true →
        ∃ j2, locate out.blocks heapBase a = some (j2, b)) := by
  have hpos : ∀ c ∈ mm.blocks, 0 < c.size := by
    intro c hc
    have := (hgood c hc).1
    unfold MIN_BLK_SIZE WSIZE at this
    omega
  have hposPre : ∀ c ∈ pre, 0 < c.size := fun c hc => hpos c (by rw [hbs]; simp [hc])
  have hloc : locate mm.blocks heapBase (heapBase + sizeSum pre)
      = some (pre.length, blk) := by
    rw [hbs]; exact locate_at pre heapBase blk post hposPre
  have hblkmem : blk ∈ mm.blocks := by rw [hbs]; simp
  obtain ⟨hblk24, hblk8, hblkd⟩ := hgood blk hblkmem
  have h24 : MIN_BLK_SIZE = 24 := rfl
  have hnodupFull : ((freePairs mm.blocks heapBase).map Prod.fst).Nodup :=
    freePairs_nodup mm.blocks heapBase hpos
  have h4 : freePairs mm.blocks heapBase
      = freePairs pre heapBase
        ++ (heapBase + sizeSum pre, blk.size)
          :: freePairs post (heapBase + sizeSum pre + blk.size) := by
    rw [hbs, freePairs_split, if_pos hfree]
    simp
  have hndT : ((elems mm.tree).map Prod.fst).Nodup := by
    rw [List.Perm.nodup_iff (htree.map Prod.fst)]
    exact hnodupFull
  have hmem : (heapBase + sizeSum pre, blk.size) ∈ elems mm.tree := by
    rw [htree.mem_iff, h4]
    simp
  have hdel := elems_idx_delete mm.tree (heapBase + sizeSum pre) blk.size hndT hmem
  have hstep : (elems mm.tree).Perm
      ((heapBase + sizeSum pre, blk.size)
        :: (freePairs pre heapBase
          ++ freePairs post (heapBase + sizeSum pre + blk.size))) := by
    refine htree.trans ?_
    rw [h4]
    exact List.perm_middle
  have ht1 : (elems (idx_delete mm.tree (heapBase + sizeSum pre))).Perm
      (freePairs pre heapBase
        ++ freePairs post (heapBase + sizeSum pre + blk.size)) :=
    (hdel.trans hstep).cons_inv
  have hsplitAdj := (noAdjFree_split pre blk post).mp (by rw [← hbs]; exact hadj)
  have hpreLast : ∀ x ∈ pre.getLast?, x.alloc = true := by
    intro x hx
    rcases hsplitAdj.2.2.1 x hx with hh | hh
    · exact hh
    · rw [hfree] at hh; cases hh
  have hpostHead : ∀ y ∈ post.head?, y.alloc = true := by
    intro y hy
    rcases hsplitAdj.2.2.2 y hy with hh | hh
    · rw [hfree] at hh; cases hh
    · exact hh
  simp only [place, hloc] at hpl
  by_cases hsp : MIN_BLK_SIZE ≤ blk.size - asize
  · rw [if_pos hsp] at hpl
    set b1 : Block :=
      { size := asize, alloc := true, color := 1,
        data := blk.data.take (asize - 8) } with hb1
    set b2 : Block :=
      { size := blk.size - asize, alloc := false, color := 1,
        data := blk.data.drop asize } with hb2
    have hblocks : (mm.blocks.set pre.length b1).insertIdx (pre.length + 1) b2
        = pre ++ b1 :: b2 :: post := by
      rw [hbs, set_at pre blk b1 post, insertIdx_at pre b1 b2 post]
    rw [← hpl]
    refine ⟨b1, [b2], by simp [hblocks], ?_, rfl, by rw [hb1], Or.inl (by rw [hb1]),
      ?_, ?_, ?_, rfl, rfl, ?_, ?_, ?_⟩
    · simp only [hblocks]
      rw [show pre ++ b1 :: b2 :: post = pre ++ b1 :: (b2 :: post) by simp]
      exact locate_at pre heapBase b1 (b2 :: post) hposPre
    · -- goodBlocks
      simp only [hblocks]
      intro c hc
      rcases List.mem_append.mp hc with hcp | hcm
      · exact hgood c (by rw [hbs]; simp [hcp])
      · rcases List.mem_cons.mp hcm with hce | hcm2
        · subst hce
          rw [hb1]
          refine ⟨by simpa using hamin, by simpa using ha8, ?_⟩
          simp [List.length_take, hblkd, h24] at hblk24 ⊢
          omega
        · rcases List.mem_cons.mp hcm2 with hce | hcq
          · subst hce
            rw [hb2]
            refine ⟨by simpa [h24] using hsp, by simp; omega, ?_⟩
            simp [List.length_drop, hblkd, h24] at hsp hblk24 ⊢
            omega
          · exact hgood c (by rw [hbs]; simp [hcq])
    · -- noAdjFree
      simp only [hblocks]
      rw [show pre ++ b1 :: b2 :: post = pre ++ b1 :: (b2 :: post) by simp,
        noAdjFree_split]
      refine ⟨hsplitAdj.1, ?_, ?_, ?_⟩
      · rw [show (b2 :: post : List Block) = [] ++ b2 :: post by simp, noAdjFree_split]
        refine ⟨by simp [noAdjFree], hsplitAdj.2.1, by simp, ?_⟩
        intro y hy
        right
        exact hpostHead y hy
      · intro x hx
        right
        rw [hb1]
      · intro y hy
        left
        rw [hb1]
    · -- index matches free blocks
      simp only [hblocks]
      have hins := elems_idx_insert (idx_delete mm.tree (heapBase + sizeSum pre))
        (heapBase + sizeSum pre + asize) (blk.size - asize)
      have hfinal := hins.trans (ht1.cons (heapBase + sizeSum pre + asize, blk.size - asize))
      have htgt : freePairs (pre ++ b1 :: b2 :: post) heapBase
          = freePairs pre heapBase
            ++ (heapBase + sizeSum pre + asize, blk.size - asize)
              :: freePairs post (heapBase + sizeSum pre + blk.size) := by
        rw [show pre ++ b1 :: b2 :: post = pre ++ b1 :: (b2 :: post) by simp,
          freePairs_split, hb1]
        simp [freePairs, hb2]
        rw [show heapBase + sizeSum pre + asize + (blk.size - asize)
          = heapBase + sizeSum pre + blk.size by omega]
      rw [htgt]
      exact hfinal.trans List.perm_middle.symm
    · -- sizeSum
      simp only [hblocks]
      rw [hbs, hb1, hb2]
      simp [sizeSum_append, sizeSum_cons]
      omega
    · -- free byte accounting
      simp only [hblocks]
      rw [hbs, hb1, hb2]
      simp [freeBytesL_append, freeBytesL_cons, hfree]
      omega
    · -- allocated blocks persist
      intro a j b hold halloc
      have hmidform : mm.blocks = pre ++ [blk] ++ post := by rw [hbs]; simp
      rw [hmidform] at hold
      have hposMid : ∀ c ∈ [blk], 0 < c.size := by
        intro c hc
        simp at hc
        subst hc
        simp [h24] at hblk24
        omega
      have htri : a < heapBase + sizeSum pre
          ∨ heapBase + sizeSum pre + sizeSum [blk] ≤ a := by
        by_contra hcon
        push_neg at hcon
        have hb := locate_in_mid pre [blk] post heapBase a j b
          (by rw [← hmidform]; exact hpos) hold (by omega) (by omega)
        simp at hb
        subst hb
        rw [halloc] at hfree
        cases hfree
      obtain ⟨j2, hj2⟩ := locate_preserve pre [blk] [b1, b2] post heapBase a j b
        (by rw [hb1, hb2]; simp [sizeSum]; omega) hposPre hposMid
        (by intro c hc
            simp at hc
            rcases hc with rfl | rfl
            · rw [hb1]; simp [h24] at hamin ⊢; omega
            · rw [hb2]; simp [h24] at hsp ⊢; omega)
        hold htri
      refine ⟨j2, ?_⟩
      simp only [hblocks]
      rw [show pre ++ b1 :: b2 :: post = pre ++ [b1, b2] ++ post by simp]
      exact hj2
  · rw [if_neg hsp] at hpl
    set b1 : Block :=
      { size := blk.size, alloc := true, color := 1,
        data := blk.data } with hb1
    have hblocks : mm.blocks.set pre.length b1 = pre ++ b1 :: post := by
      rw [hbs, set_at pre blk b1 post]
    rw [← hpl]
    refine ⟨b1, [], by simp [hblocks], ?_, rfl, by rw [hb1]; simpa using hale,
      Or.inr (by rw [hb1]), ?_, ?_, ?_, rfl, rfl, ?_, ?_, ?_⟩
    · simp only [hblocks]
      exact locate_at pre heapBase b1 post hposPre
    · -- goodBlocks
      simp only [hblocks]
      intro c hc
      rcases List.mem_append.mp hc with hcp | hcm
      · exact hgood c (by rw [hbs]; simp [hcp])
      · rcases List.mem_cons.mp hcm with hce | hcq
        · subst hce
          rw [hb1]
          exact ⟨by simpa using hblk24, by simpa using hblk8, by simpa using hblkd⟩
        · exact hgood c (by rw [hbs]; simp [hcq])
    · -- noAdjFree
      simp only [hblocks]
      rw [noAdjFree_split]
      refine ⟨hsplitAdj.1, hsplitAdj.2.1, ?_, ?_⟩
      · intro x hx
        right
        rw [hb1]
      · intro y hy
        left
        rw [hb1]
    · -- index matches free blocks
      simp only [hblocks]
      have htgt : freePairs (pre ++ b1 :: post) heapBase
          = freePairs pre heapBase
            ++ freePairs post (heapBase + sizeSum pre + blk.size) := by
        rw [freePairs_split, hb1]
        simp
      rw [htgt]
      exact ht1
    · -- sizeSum
      simp only [hblocks]
      rw [hbs, hb1]
      simp [sizeSum_append, sizeSum_cons]
    · -- free byte accounting
      simp only [hblocks]
      rw [hbs, hb1]
      simp [freeBytesL_append, freeBytesL_cons, hfree]
      omega
    · -- allocated blocks persist
      intro a j b hold halloc
      have hmidform : mm.blocks = pre ++ [blk] ++ post := by rw [hbs]; simp
      rw [hmidform] at hold
      have hposMid : ∀ c ∈ [blk], 0 < c.size := by
        intro c hc
        simp at hc
        subst hc
        simp [h24] at hblk24
        omega
      have htri : a < heapBase + sizeSum pre
          ∨ heapBase + sizeSum pre + sizeSum [blk] ≤ a := by
        by_contra hcon
        push_neg at hcon
        have hb := locate_in_mid pre [blk] post heapBase a j b
          (by rw [← hmidform]; exact hpos) hold (by omega) (by omega)
        simp at hb
        subst hb
        rw [halloc] at hfree
        cases hfree
      obtain ⟨j2, hj2⟩ := locate_preserve pre [blk] [b1] post heapBase a j b
        (by rw [hb1]; simp [sizeSum]) hposPre hposMid
        (by intro c hc
            simp at hc
            subst hc
            rw [hb1]
            simp [h24] at hblk24 ⊢
            omega)
        hold htri
      refine ⟨j2, ?_⟩
      simp only [hblocks]
      rw [show pre ++ b1 :: post = pre ++ [b1] ++ post by simp]
      exact hj2

end MMAlloc

namespace MMAlloc

set_option maxHeartbeats 1000000

/-- Sharper form of `locate_in_mid`: the found block sits at an exact
offset inside the middle segment. -/
theorem locate_in_mid_split (pre mid post : List Block) (base a j : Nat) (b : Block)
    (hpos : ∀ c ∈ pre ++ mid ++ post, 0 < c.size)
    (hold : locate (pre ++ mid ++ post) base a = some (j, b))
    (h1 : base + sizeSum pre ≤ a) (h2 : a < base + sizeSum pre + sizeSum mid) :
    ∃ preM postM, mid = preM ++ b :: postM ∧ a = base + sizeSum pre + sizeSum preM := by
  have hposPre : ∀ c ∈ pre, 0 < c.size := fun c hc => hpos c (by simp [hc])
  have hpre : locate pre base a = none := locate_none_of_ge pre base a hposPre h1
  rw [List.append_assoc, locate_append_right pre (mid ++ post) base a hpre] at hold
  rcases hmp : locate (mid ++ post) (base + sizeSum pre) a with _ | ⟨j1, c1⟩
  · rw [hmp] at hold; simp at hold
  · rw [hmp] at hold
    have hold2 : (some (j1 + pre.length, c1) : Option (Nat × Block)) = some (j, b) := hold
    have hcb : c1 = b := congrArg Prod.snd (Option.some.inj hold2)
    rcases hm : locate mid (base + sizeSum pre) a with _ | ⟨j2, c2⟩
    · rw [locate_append_right mid post (base + sizeSum pre) a hm] at hmp
      rcases hpo : locate post (base + sizeSum pre + sizeSum mid) a with _ | ⟨j3, c3⟩
      · rw [hpo] at hmp; simp at hmp
      · obtain ⟨pp, qq, _, _, haddr⟩ :=
          locate_eq_some post (base + sizeSum pre + sizeSum mid) a j3 c3 hpo
        omega
    · have heq : (some (j2, c2) : Option (Nat × Block)) = some (j1, c1) := by
        rw [← locate_append_left mid post (base + sizeSum pre) a j2 c2 hm, hmp]
      have hc : c2 = c1 := congrArg Prod.snd (Option.some.inj heq)
      obtain ⟨pp, qq, hsplit, _, haddr⟩ :=
        locate_eq_some mid (base + sizeSum pre) a j2 c2 hm
      refine ⟨pp, qq, ?_, by omega⟩
      rw [hsplit, hc, hcb]

/-- Whatever the shape of the index, `find_fit` only ever returns a
tracked pair whose size fits the request. -/
theorem find_fit_go_mem (asize : Nat) (t : FTree) : ∀ (best : Option (Nat × Nat))
    (bp sz : Nat), (∀ b ∈ best, asize ≤ b.2) →
    find_fit_go asize t best = some (bp, sz) →
    ((bp, sz) ∈ elems t ∨ best = some (bp, sz)) ∧ asize ≤ sz := by
  induction t with
  | leaf =>
    intro best bp sz hb h
    simp only [find_fit_go] at h
    exact ⟨Or.inr h, hb (bp, sz) (by simp [h])⟩
  | node l b0 sz0 r ihl ihr =>
    intro best bp sz hb h
    by_cases hc : asize ≤ sz0
    · rw [show find_fit_go asize (FTree.node l b0 sz0 r) best
          = find_fit_go asize l (some (b0, sz0)) by simp [find_fit_go, hc]] at h
      obtain ⟨hm, hsz⟩ := ihl (some (b0, sz0)) bp sz
        (by intro b hbm; simp at hbm; subst hbm; exact hc) h
      refine ⟨Or.inl ?_, hsz⟩
      rcases hm with hm | hm
      · simp [elems]
        exact Or.inl hm
      · simp at hm
        simp [elems, hm.1, hm.2]
    · rw [show find_fit_go asize (FTree.node l b0 sz0 r) best
          = find_fit_go asize r best by simp [find_fit_go, hc]] at h
      obtain ⟨hm, hsz⟩ := ihr best bp sz hb h
      refine ⟨?_, hsz⟩
      rcases hm with hm | hm
      · left
        simp [elems]
        exact Or.inr (Or.inr hm)
      · exact Or.inr hm

theorem find_fit_mem (asize : Nat) (t : FTree) (bp sz : Nat)
    (h : find_fit asize t = some (bp, sz)) :
    (bp, sz) ∈ elems t ∧ asize ≤ sz := by
  obtain ⟨hm, hsz⟩ := find_fit_go_mem asize t none bp sz (by simp) h
  rcases hm with hm | hm
  · exact ⟨hm, hsz⟩
  · simp at hm

/-- A tracked pair of `freePairs` comes from a free block at that
address. -/
theorem freePairs_mem_split (bs : List Block) : ∀ (cur a sz : Nat),
    (a, sz) ∈ freePairs bs cur →
    ∃ pre blkf post, bs = pre ++ blkf :: post ∧ blkf.alloc = false ∧
      blkf.size = sz ∧ a = cur + sizeSum pre := by
  induction bs with
  | nil => intro cur a sz h; simp [freePairs] at h
  | cons b rest ih =>
    intro cur a sz h
    simp only [freePairs, List.mem_append] at h
    rcases h with h | h
    · by_cases hb : b.alloc = false
      · rw [if_pos hb] at h
        simp at h
        exact ⟨[], b, rest, rfl, hb, h.2.symm, by simp [h.1, sizeSum_nil]⟩
      · rw [if_neg hb] at h
        simp at h
    · obtain ⟨pre', blkf, post', hsplit, hal, hsz, haddr⟩ := ih (cur + b.size) a sz h
      refine ⟨b :: pre', blkf, post', by rw [hsplit]; rfl, hal, hsz, ?_⟩
      rw [haddr, sizeSum_cons]
      omega

/-- Replacing one block's payload bytes by fresh bytes of the same
length preserves the allocator invariant. -/
theorem WF_set_data (mm : MM) (pre : List Block) (c c2 : Block) (post : List Block)
    (hbs : mm.blocks = pre ++ c :: post)
    (hsz : c2.size = c.size) (hal : c2.alloc = c.alloc)
    (hdl : c2.data.length = c.data.length)
    (hW : WF mm) :
    WF { mm with blocks := pre ++ c2 :: post } := by
  obtain ⟨hgood, hadj, htree⟩ := hW
  refine ⟨?_, ?_, ?_⟩
  · intro b hb
    simp only [List.mem_append, List.mem_cons] at hb
    rcases hb with hb | hb | hb
    · exact hgood b (by rw [hbs]; simp [hb])
    · subst hb
      obtain ⟨h1, h2, h3⟩ := hgood c (by rw [hbs]; simp)
      exact ⟨by rw [hsz]; exact h1, by rw [hsz]; exact h2, by rw [hdl, hsz]; exact h3⟩
    · exact hgood b (by rw [hbs]; simp [hb])
  · rw [hbs] at hadj
    rw [noAdjFree_split] at hadj ⊢
    obtain ⟨h1, h2, h3, h4⟩ := hadj
    refine ⟨h1, h2, ?_, ?_⟩
    · intro x hx
      rcases h3 x hx with hh | hh
      · exact Or.inl hh
      · exact Or.inr (by rw [hal]; exact hh)
    · intro y hy
      rcases h4 y hy with hh | hh
      · exact Or.inl (by rw [hal]; exact hh)
      · exact Or.inr hh
  · rw [hbs] at htree
    rw [freePairs_split] at htree
    rw [freePairs_split, hsz, hal]
    exact htree

/-- Specification of `mm_free` on a live block: the invariant is
preserved, the block's bytes return to the free pool, and every other
allocated block keeps its address and contents. -/
theorem mm_free_spec (mm : MM) (p i : Nat) (blk : Block) (out : MM)
    (hW : WF mm)
    (hloc : locate mm.blocks heapBase p = some (i, blk))
    (halloc : blk.alloc = true)
    (hf : mm_free mm p = out) :
    WF out ∧ out.used = mm.used ∧ out.limit = mm.limit ∧
    sizeSum out.blocks = sizeSum mm.blocks ∧
    freeBytesL out.blocks = freeBytesL mm.blocks + blk.size ∧
    (∀ a j b, locate mm.blocks heapBase a = some (j, b) → b.alloc = true → a ≠ p →
      ∃ j2, locate out.blocks heapBase a = some (j2, b)) := by
  obtain ⟨hgood, hadj, htree⟩ := hW
  have hpos : ∀ c ∈ mm.blocks, 0 < c.size := by
    intro c hc
    have := (hgood c hc).1
    unfold MIN_BLK_SIZE WSIZE at this
    omega
  obtain ⟨pre, post, hbs, hlen, haddr⟩ := locate_eq_some mm.blocks heapBase p i blk hloc
  have hp0 : p ≠ 0 := by rw [haddr]; unfold heapBase; omega
  set fb : Block := { blk with alloc := false } with hfb
  have hmm1 : (mm.blocks.set i fb) = pre ++ fb :: post := by
    rw [hbs, ← hlen, set_at pre blk fb post]
  simp only [mm_free, if_neg hp0, hloc] at hf
  rw [hmm1] at hf
  have hSplitAdj := (noAdjFree_split pre blk post).mp (by rw [← hbs]; exact hadj)
  have hco : coalesce { mm with blocks := pre ++ fb :: post }
        (heapBase + sizeSum pre)
      = ((coalesce { mm with blocks := pre ++ fb :: post }
        (heapBase + sizeSum pre)).1, out) := by
    rw [← hf, haddr]
  have hgood1 : goodBlocks ({ mm with blocks := pre ++ fb :: post } : MM).blocks := by
    show goodBlocks (pre ++ fb :: post)
    intro c hc
    simp only [List.mem_append, List.mem_cons] at hc
    rcases hc with hc | hc | hc
    · exact hgood c (by rw [hbs]; simp [hc])
    · subst hc
      obtain ⟨h1, h2, h3⟩ := hgood blk (by rw [hbs]; simp)
      exact ⟨h1, h2, h3⟩
    · exact hgood c (by rw [hbs]; simp [hc])
  have htree1 : (elems ({ mm with blocks := pre ++ fb :: post } : MM).tree).Perm
      (freePairs pre heapBase ++ freePairs post (heapBase + sizeSum pre + fb.size)) := by
    show (elems mm.tree).Perm
      (freePairs pre heapBase ++ freePairs post (heapBase + sizeSum pre + fb.size))
    rw [hbs, freePairs_split, if_neg (by rw [halloc]; simp)] at htree
    simp only [List.append_nil] at htree
    rw [show fb.size = blk.size from rfl]
    exact htree
  obtain ⟨pre2, merged, post2, hob, hres, hmall, hmsz, hg2, ha2, ht2, hu2, hl2,
      hsz2, hfb2, hpres2⟩ :=
    coalesce_spec { mm with blocks := pre ++ fb :: post } pre fb post _ out
      rfl (by rw [hfb]) hgood1 hSplitAdj.1 hSplitAdj.2.1 htree1 hco
  refine ⟨⟨hg2, ha2, ht2⟩, hu2, hl2, ?_, ?_, ?_⟩
  · rw [hsz2]
    show sizeSum (pre ++ fb :: post) = sizeSum mm.blocks
    rw [hbs]
    simp only [sizeSum_append, sizeSum_cons]
  · rw [hfb2]
    show freeBytesL (pre ++ fb :: post) = freeBytesL mm.blocks + blk.size
    rw [hbs, freeBytesL_append, freeBytesL_append, freeBytesL_cons, freeBytesL_cons]
    rw [if_pos (show fb.alloc = false from rfl), if_neg (by rw [halloc]; simp)]
    rw [show fb.size = blk.size from rfl]
    omega
  · intro a j b hlocA hallocA hne
    have hposPre : ∀ c ∈ pre, 0 < c.size := fun c hc => hpos c (by rw [hbs]; simp [hc])
    have hblocksEq : pre ++ [blk] ++ post = mm.blocks := by rw [hbs]; simp
    have hout : a < heapBase + sizeSum pre
        ∨ heapBase + sizeSum pre + sizeSum [blk] ≤ a := by
      by_contra hcon
      push_neg at hcon
      obtain ⟨hge, hlt⟩ := hcon
      obtain ⟨preM, postM, hsplitM, haddr2⟩ :=
        locate_in_mid_split pre [blk] post heapBase a j b
          (by intro c hc; exact hpos c (by rw [← hblocksEq]; exact hc))
          (by rw [hblocksEq]; exact hlocA) hge hlt
      rcases preM with _ | ⟨x, xs⟩
      · apply hne
        rw [haddr2, haddr, sizeSum_nil]
        omega
      · have hlenM := congrArg List.length hsplitM
        simp at hlenM
    obtain ⟨j2, hj2⟩ := locate_preserve pre [blk] [fb] post heapBase a j b
      (by simp only [sizeSum_cons, sizeSum_nil]) hposPre
      (by
        intro c hc; simp only [List.mem_singleton] at hc; rw [hc]
        exact hpos blk (by rw [hbs]; simp))
      (by
        intro c hc; simp only [List.mem_singleton] at hc; rw [hc]
        show 0 < fb.size
        exact hpos blk (by rw [hbs]; simp))
      (by rw [hblocksEq]; exact hlocA) hout
    have hj2' : locate ({ mm with blocks := pre ++ fb :: post } : MM).blocks
        heapBase a = some (j2, b) := by
      show locate (pre ++ fb :: post) heapBase a = some (j2, b)
      rw [show pre ++ fb :: post = pre ++ [fb] ++ post from by simp]
      exact hj2
    exact hpres2 a j2 b hj2' hallocA

end MMAlloc

namespace MMAlloc

set_option maxHeartbeats 1000000

/-- Specification of `extend_heap`: on success the invariant is
preserved, the heap gains a free block big enough for the requested
growth at the returned address, and every allocated block survives
unchanged. -/
theorem extend_heap_spec (mm : MM) (words res : Nat) (out : MM)
    (hW : WF mm)
    (hx : extend_heap mm words = some (res, out)) :
    WF out ∧ out.limit = mm.limit ∧ mm.used ≤ out.used ∧
    ∃ pre2 mb post2,
      out.blocks = pre2 ++ mb :: post2 ∧ res = heapBase + sizeSum pre2 ∧
      mb.alloc = false ∧ words * WSIZE ≤ mb.size ∧
      (∀ a j b, locate mm.blocks heapBase a = some (j, b) → b.alloc = true →
        ∃ j2, locate out.blocks heapBase a = some (j2, b)) := by
  obtain ⟨hgood, hadj, htree⟩ := hW
  simp only [extend_heap] at hx
  generalize hs0def : (if words % 2 = 1 then (words + 1) * WSIZE
    else words * WSIZE) = size0 at hx
  generalize hsdef : (if size0 < MIN_BLK_SIZE then MIN_BLK_SIZE else size0) = size at hx
  have h4 : WSIZE = 4 := rfl
  have hMIN : MIN_BLK_SIZE = 24 := rfl
  have hs0p : words * WSIZE ≤ size0 ∧ size0 % 8 = 0 := by
    rw [← hs0def, h4]
    by_cases hw : words % 2 = 1
    · rw [if_pos hw]
      constructor
      · omega
      · omega
    · rw [if_neg hw]
      constructor
      · omega
      · omega
  have hsp : MIN_BLK_SIZE ≤ size ∧ size % 8 = 0 ∧ words * WSIZE ≤ size := by
    rw [← hsdef]
    by_cases hlt : size0 < MIN_BLK_SIZE
    · rw [if_pos hlt]
      rw [hMIN] at hlt ⊢
      rw [h4] at hs0p ⊢
      omega
    · rw [if_neg hlt]
      rw [hMIN] at hlt ⊢
      exact ⟨by omega, hs0p.2, hs0p.1⟩
  rcases Nat.lt_or_ge mm.limit (mm.used + size) with hlim | hlim
  · rw [if_pos hlim] at hx
    exact absurd hx (by simp)
  · rw [if_neg (not_lt.mpr hlim)] at hx
    have hco := Option.some.inj hx
    set nb : Block := { size := size, alloc := false, color := 1,
                        data := List.replicate (size - 8) 0 } with hnb
    have hco2 : coalesce
        ({ mm with blocks := mm.blocks ++ [nb], used := mm.used + size } : MM)
        (heapBase + sizeSum mm.blocks) = (res, out) := hco
    have hgood1 : goodBlocks
        ({ mm with blocks := mm.blocks ++ [nb], used := mm.used + size } : MM).blocks := by
      show goodBlocks (mm.blocks ++ [nb])
      intro b hb
      simp only [List.mem_append, List.mem_singleton] at hb
      rcases hb with hb | hb
      · exact hgood b hb
      · subst hb
        refine ⟨hsp.1, hsp.2.1, ?_⟩
      /- payload length of the fresh block -/
        show (List.replicate (size - 8) 0).length = size - 8
        simp
    have htree1 : (elems
        ({ mm with blocks := mm.blocks ++ [nb], used := mm.used + size } : MM).tree).Perm
        (freePairs mm.blocks heapBase
          ++ freePairs [] (heapBase + sizeSum mm.blocks + nb.size)) := by
      show (elems mm.tree).Perm _
      simpa [freePairs] using htree
    obtain ⟨pre2, merged, post2, hob, hres, hmall, hmsz, hg2, ha2, ht2, hu2, hl2,
        hsz2, hfb2, hpres2⟩ :=
      coalesce_spec { mm with blocks := mm.blocks ++ [nb], used := mm.used + size }
        mm.blocks nb [] res out rfl rfl hgood1 hadj (by simp [noAdjFree]) htree1 hco2
    refine ⟨⟨hg2, ha2, ht2⟩, hl2, ?_, pre2, merged, post2, hob, hres, hmall, ?_, ?_⟩
    · rw [hu2]
      show mm.used ≤ mm.used + size
      omega
    · have : nb.size ≤ merged.size := hmsz
      have hnbs : nb.size = size := rfl
      omega
    · intro a j b hlocA hallocA
      have hstep : locate (mm.blocks ++ [nb]) heapBase a = some (j, b) :=
        locate_append_left mm.blocks [nb] heapBase a j b hlocA
      exact hpres2 a j b hstep hallocA

end MMAlloc

namespace MMAlloc

set_option maxHeartbeats 1000000

/-- Specification of `mm_malloc`: the invariant is preserved, a null
result leaves the state untouched, and a non-null result addresses an
allocated block big enough for the adjusted request while every
previously allocated block survives unchanged. -/
theorem mm_malloc_spec (mm : MM) (s res : Nat) (out : MM)
    (hW : WF mm) (hm : mm_malloc mm s = (res, out)) :
    WF out ∧ out.limit = mm.limit ∧
    (res = 0 → out = mm) ∧
    (res ≠ 0 →
      (∃ j b1, locate out.blocks heapBase res = some (j, b1) ∧ b1.alloc = true ∧
        adjust_asize s ≤ b1.size) ∧
      (∀ a j b, locate mm.blocks heapBase a = some (j, b) → b.alloc = true →
        ∃ j2, locate out.blocks heapBase a = some (j2, b))) := by
  by_cases hs0 : s = 0
  · subst hs0
    rw [show mm_malloc mm 0 = (0, mm) from by simp [mm_malloc]] at hm
    have hres : (0 : Nat) = res := congrArg Prod.fst hm
    have hout : mm = out := congrArg Prod.snd hm
    subst hres
    subst hout
    exact ⟨hW, rfl, fun _ => rfl, fun hr => absurd rfl hr⟩
  · simp only [mm_malloc, if_neg hs0] at hm
    rcases hff : find_fit (adjust_asize s) mm.tree with _ | ⟨bp, szf⟩
    · rw [hff] at hm
      rcases hx : extend_heap mm (max (adjust_asize s) CHUNKSIZE / WSIZE)
        with _ | ⟨bp1, mm1⟩
      · rw [hx] at hm
        have hm2 : ((0 : Nat), mm) = (res, out) := hm
        have hres : (0 : Nat) = res := congrArg Prod.fst hm2
        have hout : mm = out := congrArg Prod.snd hm2
        subst hres
        subst hout
        exact ⟨hW, rfl, fun _ => rfl, fun hr => absurd rfl hr⟩
      · rw [hx] at hm
        have hm2 : (bp1, place mm1 bp1 (adjust_asize s)) = (res, out) := hm
        have hres : bp1 = res := congrArg Prod.fst hm2
        have hout : place mm1 bp1 (adjust_asize s) = out := congrArg Prod.snd hm2
        obtain ⟨hW1, hl1, _, pre2, mb, post2, hbs1, hbp1, hmal, hmsz, hpresX⟩ :=
          extend_heap_spec mm (max (adjust_asize s) CHUNKSIZE / WSIZE) bp1 mm1 hW hx
        have hasz : adjust_asize s ≤ max (adjust_asize s) CHUNKSIZE / WSIZE * WSIZE := by
          have h8 : adjust_asize s % 8 = 0 := adjust_asize_mod8 s
          have h4 : WSIZE = 4 := rfl
          have hCH : CHUNKSIZE = 4096 := rfl
          rw [h4]
          rcases max_choice (adjust_asize s) CHUNKSIZE with hmx | hmx
          · rw [hmx]
            omega
          · have hle : adjust_asize s ≤ CHUNKSIZE := hmx ▸ le_max_left _ _
            rw [hmx, hCH]
            rw [hCH] at hle
            omega
        obtain ⟨hg1, ha1, ht1⟩ := hW1
        rw [hbp1] at hout
        obtain ⟨b1, rest, hob, hlocb, hal1, hsz1, _, hg2, ha2, ht2, hu2, hl2,
            hSig2, hfb2, hpres2⟩ :=
          place_spec mm1 pre2 mb post2 (adjust_asize s) out hbs1 hmal hg1 ha1 ht1
            (adjust_asize_mod8 s) (adjust_asize_min s)
            (le_trans hasz hmsz) hout
        refine ⟨⟨hg2, ha2, ht2⟩, by rw [hl2, hl1], ?_, ?_⟩
        · intro h
          exfalso
          rw [← hres, hbp1] at h
          unfold heapBase at h
          omega
        · intro _
          refine ⟨⟨pre2.length, b1, ?_, hal1, hsz1⟩, ?_⟩
          · rw [← hres, hbp1]
            exact hlocb
          · intro a j b hlocA hallocA
            obtain ⟨j1, hj1⟩ := hpresX a j b hlocA hallocA
            exact hpres2 a j1 b hj1 hallocA
    · rw [hff] at hm
      have hm2 : (bp, place mm bp (adjust_asize s)) = (res, out) := hm
      have hres : bp = res := congrArg Prod.fst hm2
      have hout : place mm bp (adjust_asize s) = out := congrArg Prod.snd hm2
      obtain ⟨hmem, hszf⟩ := find_fit_mem (adjust_asize s) mm.tree bp szf hff
      obtain ⟨hg0, ha0, ht0⟩ := hW
      have hmem2 : (bp, szf) ∈ freePairs mm.blocks heapBase := ht0.mem_iff.mp hmem
      obtain ⟨pre, blkf, post, hbs, half, hszeq, haddr⟩ :=
        freePairs_mem_split mm.blocks heapBase bp szf hmem2
      rw [haddr] at hout
      obtain ⟨b1, rest, hob, hlocb, hal1, hsz1, _, hg2, ha2, ht2, hu2, hl2,
          hSig2, hfb2, hpres2⟩ :=
        place_spec mm pre blkf post (adjust_asize s) out hbs half hg0 ha0 ht0
          (adjust_asize_mod8 s) (adjust_asize_min s)
          (by rw [hszeq]; exact hszf) hout
      refine ⟨⟨hg2, ha2, ht2⟩, hl2, ?_, ?_⟩
      · intro h
        exfalso
        rw [← hres, haddr] at h
        unfold heapBase at h
        omega
      · intro _
        refine ⟨⟨pre.length, b1, ?_, hal1, hsz1⟩, hpres2⟩
        rw [← hres, haddr]
        exact hlocb

end MMAlloc

namespace MMAlloc

set_option maxHeartbeats 1000000

/-- Removing the next physical free block's entry from a faithful
index leaves exactly the other free blocks' entries. -/
theorem tree_after_delete_next (mm : MM) (pre : List Block) (blk nb : Block)
    (post1 : List Block)
    (hbs : mm.blocks = pre ++ blk :: nb :: post1)
    (hba : blk.alloc = true) (hnba : nb.alloc = false)
    (hgood : goodBlocks mm.blocks)
    (htree : (elems mm.tree).Perm (freePairs mm.blocks heapBase)) :
    (elems (idx_delete mm.tree (heapBase + sizeSum pre + blk.size))).Perm
      (freePairs pre heapBase
        ++ freePairs post1 (heapBase + sizeSum pre + blk.size + nb.size)) := by
  have hpos : ∀ c ∈ mm.blocks, 0 < c.size := by
    intro c hc
    have := (hgood c hc).1
    unfold MIN_BLK_SIZE WSIZE at this
    omega
  have hfp : freePairs mm.blocks heapBase
      = freePairs pre heapBase
        ++ (heapBase + sizeSum pre + blk.size, nb.size)
          :: freePairs post1 (heapBase + sizeSum pre + blk.size + nb.size) := by
    rw [hbs, freePairs_split, if_neg (by rw [hba]; simp)]
    show freePairs pre heapBase ++ [] ++ freePairs (nb :: post1) _ = _
    rw [show freePairs (nb :: post1) (heapBase + sizeSum pre + blk.size)
        = (if nb.alloc = false
            then [(heapBase + sizeSum pre + blk.size, nb.size)] else [])
          ++ freePairs post1 (heapBase + sizeSum pre + blk.size + nb.size)
      from rfl]
    rw [if_pos hnba]
    simp
  have hnodup : ((elems mm.tree).map Prod.fst).Nodup := by
    have hfn : ((freePairs mm.blocks heapBase).map Prod.fst).Nodup :=
      freePairs_nodup mm.blocks heapBase hpos
    exact (htree.map Prod.fst).nodup_iff.mpr hfn
  have hmem : (heapBase + sizeSum pre + blk.size, nb.size) ∈ elems mm.tree := by
    rw [htree.mem_iff, hfp]
    simp
  have hdel := elems_idx_delete mm.tree (heapBase + sizeSum pre + blk.size)
    nb.size hnodup hmem
  have hstep : ((heapBase + sizeSum pre + blk.size, nb.size)
      :: elems (idx_delete mm.tree (heapBase + sizeSum pre + blk.size))).Perm
      ((heapBase + sizeSum pre + blk.size, nb.size)
        :: (freePairs pre heapBase
          ++ freePairs post1 (heapBase + sizeSum pre + blk.size + nb.size))) := by
    refine (hdel.trans (htree.trans ?_))
    rw [hfp]
    exact List.perm_middle
  exact hstep.cons_inv

/-- Well-formedness of the state produced by the expand-in-place
branch of `mm_realloc` when the absorbed pair is split. -/
theorem realloc_split_WF (mm : MM) (pre : List Block) (blk nb : Block)
    (post1 : List Block) (new_size : Nat) (b1 b2 : Block) (t2 : FTree) (out : MM)
    (hbs : mm.blocks = pre ++ blk :: nb :: post1)
    (hba : blk.alloc = true) (hnba : nb.alloc = false) (hW : WF mm)
    (h8 : new_size % 8 = 0) (hmin : MIN_BLK_SIZE ≤ new_size)
    (hgt : blk.size < new_size) (hfit : new_size ≤ blk.size + nb.size)
    (hsp : MIN_BLK_SIZE ≤ blk.size + nb.size - new_size)
    (hb1 : b1 = ⟨new_size, true, 1,
      (blk.data ++ metaPad ++ metaPad ++ nb.data).take (new_size - 8)⟩)
    (hb2 : b2 = ⟨blk.size + nb.size - new_size, false, 1,
      (blk.data ++ metaPad ++ metaPad ++ nb.data).drop new_size⟩)
    (ht2 : t2 = idx_insert (idx_delete mm.tree (heapBase + sizeSum pre + blk.size))
      (heapBase + sizeSum pre + new_size) (blk.size + nb.size - new_size))
    (hout : out = { mm with
      blocks := (mm.blocks.set pre.length b1).set (pre.length + 1) b2,
      tree := t2 }) :
    WF out ∧ out.used = mm.used ∧ out.limit = mm.limit ∧
    out.blocks = pre ++ b1 :: b2 :: post1 := by
  obtain ⟨hgood, hadj, htree⟩ := hW
  have hgb := hgood blk (by rw [hbs]; simp)
  have hgn := hgood nb (by rw [hbs]; simp)
  have hMIN : MIN_BLK_SIZE = 24 := rfl
  have hfull : (blk.data ++ metaPad ++ metaPad ++ nb.data).length
      = blk.size + nb.size - 8 := by
    simp [metaPad]
    rw [hgb.2.2, hgn.2.2]
    rw [hMIN] at hgb hgn
    omega
  have hobs : out.blocks = pre ++ b1 :: b2 :: post1 := by
    rw [hout]
    show (mm.blocks.set pre.length b1).set (pre.length + 1) b2 = _
    rw [hbs, set_at pre blk b1 (nb :: post1)]
    rw [show pre ++ b1 :: nb :: post1 = (pre ++ [b1]) ++ nb :: post1 from by simp]
    rw [show pre.length + 1 = (pre ++ [b1]).length from by simp]
    rw [set_at (pre ++ [b1]) nb b2 post1]
    simp
  have hadj1 := (noAdjFree_split pre blk (nb :: post1)).mp (by rw [← hbs]; exact hadj)
  have hadj2 := (noAdjFree_split ([] : List Block) nb post1).mp
    (by simpa using hadj1.2.1)
  refine ⟨⟨?_, ?_, ?_⟩, by rw [hout], by rw [hout], hobs⟩
  · rw [hobs]
    intro c hc
    simp only [List.mem_append, List.mem_cons] at hc
    rcases hc with hc | hc | hc | hc
    · exact hgood c (by rw [hbs]; simp [hc])
    · subst hc
      rw [hb1]
      refine ⟨hmin, h8, ?_⟩
      show ((blk.data ++ metaPad ++ metaPad ++ nb.data).take (new_size - 8)).length
        = new_size - 8
      rw [List.length_take, hfull]
      rw [hMIN] at hsp
      omega
    · subst hc
      rw [hb2]
      refine ⟨hsp, ?_, ?_⟩
      · have h1 := hgb.2.1
        have h2 := hgn.2.1
        show (blk.size + nb.size - new_size) % 8 = 0
        omega
      · show ((blk.data ++ metaPad ++ metaPad ++ nb.data).drop new_size).length
          = (blk.size + nb.size - new_size) - 8
        rw [List.length_drop, hfull]
        rw [hMIN] at hsp
        omega
    · exact hgood c (by rw [hbs]; simp [hc])
  · rw [hobs]
    refine (noAdjFree_split pre b1 (b2 :: post1)).mpr
      ⟨hadj1.1, ?_, fun x _ => Or.inr (by rw [hb1]), fun y hy => Or.inl (by rw [hb1])⟩
    refine (noAdjFree_split ([] : List Block) b2 post1).mpr
      ⟨by simp [noAdjFree], hadj2.2.1, by simp, ?_⟩
    intro y hy
    rcases hadj2.2.2.2 y hy with hh | hh
    · rw [hnba] at hh
      exact absurd hh (by simp)
    · exact Or.inr hh
  · rw [hobs, hout]
    show (elems t2).Perm (freePairs (pre ++ b1 :: b2 :: post1) heapBase)
    rw [ht2]
    have hdel := tree_after_delete_next mm pre blk nb post1 hbs hba hnba hgood htree
    have hins := elems_idx_insert
      (idx_delete mm.tree (heapBase + sizeSum pre + blk.size))
      (heapBase + sizeSum pre + new_size) (blk.size + nb.size - new_size)
    have htarget : freePairs (pre ++ b1 :: b2 :: post1) heapBase
        = freePairs pre heapBase
          ++ (heapBase + sizeSum pre + new_size, blk.size + nb.size - new_size)
            :: freePairs post1 (heapBase + sizeSum pre + blk.size + nb.size) := by
      rw [freePairs_split, if_neg (by rw [hb1]; simp)]
      rw [show freePairs (b2 :: post1) (heapBase + sizeSum pre + b1.size)
          = (if b2.alloc = false
              then [(heapBase + sizeSum pre + b1.size, b2.size)] else [])
            ++ freePairs post1 (heapBase + sizeSum pre + b1.size + b2.size) from rfl]
      rw [if_pos (show b2.alloc = false from by rw [hb2])]
      rw [show b1.size = new_size from by rw [hb1]]
      rw [show b2.size = blk.size + nb.size - new_size from by rw [hb2]]
      rw [show heapBase + sizeSum pre + new_size + (blk.size + nb.size - new_size)
          = heapBase + sizeSum pre + blk.size + nb.size from by omega]
      simp
    rw [htarget]
    exact (hins.trans (hdel.cons _)).trans List.perm_middle.symm

/-- Well-formedness of the state produced by the expand-in-place
branch of `mm_realloc` when the whole next block is absorbed. -/
theorem realloc_merge_WF (mm : MM) (pre : List Block) (blk nb : Block)
    (post1 : List Block) (new_size : Nat) (b1 : Block) (t1 : FTree) (out : MM)
    (hbs : mm.blocks = pre ++ blk :: nb :: post1)
    (hba : blk.alloc = true) (hnba : nb.alloc = false) (hW : WF mm)
    (hgt : blk.size < new_size) (hfit : new_size ≤ blk.size + nb.size)
    (hb1 : b1 = ⟨blk.size + nb.size, true, 1,
      blk.data ++ metaPad ++ metaPad ++ nb.data⟩)
    (ht1 : t1 = idx_delete mm.tree (heapBase + sizeSum pre + blk.size))
    (hout : out = { mm with
      blocks := (mm.blocks.set pre.length b1).eraseIdx (pre.length + 1),
      tree := t1 }) :
    WF out ∧ out.used = mm.used ∧ out.limit = mm.limit ∧
    out.blocks = pre ++ b1 :: post1 := by
  obtain ⟨hgood, hadj, htree⟩ := hW
  have hgb := hgood blk (by rw [hbs]; simp)
  have hgn := hgood nb (by rw [hbs]; simp)
  have hMIN : MIN_BLK_SIZE = 24 := rfl
  have hfull : (blk.data ++ metaPad ++ metaPad ++ nb.data).length
      = blk.size + nb.size - 8 := by
    simp [metaPad]
    rw [hgb.2.2, hgn.2.2]
    rw [hMIN] at hgb hgn
    omega
  have hobs : out.blocks = pre ++ b1 :: post1 := by
    rw [hout]
    show ((mm.blocks.set pre.length b1).eraseIdx (pre.length + 1)) = _
    rw [hbs, set_at pre blk b1 (nb :: post1)]
    rw [show pre ++ b1 :: nb :: post1 = (pre ++ [b1]) ++ nb :: post1 from by simp]
    rw [show pre.length + 1 = (pre ++ [b1]).length from by simp]
    rw [eraseIdx_at (pre ++ [b1]) nb post1]
    simp
  have hadj1 := (noAdjFree_split pre blk (nb :: post1)).mp (by rw [← hbs]; exact hadj)
  have hadj2 := (noAdjFree_split ([] : List Block) nb post1).mp
    (by simpa using hadj1.2.1)
  refine ⟨⟨?_, ?_, ?_⟩, by rw [hout], by rw [hout], hobs⟩
  · rw [hobs]
    intro c hc
    simp only [List.mem_append, List.mem_cons] at hc
    rcases hc with hc | hc | hc
    · exact hgood c (by rw [hbs]; simp [hc])
    · subst hc
      rw [hb1]
      have h1 := hgb.1
      have h2 := hgb.2.1
      have h3 := hgn.2.1
      refine ⟨by rw [hMIN] at h1 ⊢; show 24 ≤ blk.size + nb.size; omega,
        by show (blk.size + nb.size) % 8 = 0; omega, ?_⟩
      show (blk.data ++ metaPad ++ metaPad ++ nb.data).length
        = blk.size + nb.size - 8
      exact hfull
    · exact hgood c (by rw [hbs]; simp [hc])
  · rw [hobs]
    refine (noAdjFree_split pre b1 post1).mpr
      ⟨hadj1.1, hadj2.2.1, fun x _ => Or.inr (by rw [hb1]), ?_⟩
    intro y hy
    rcases hadj2.2.2.2 y hy with hh | hh
    · rw [hnba] at hh
      exact absurd hh (by simp)
    · exact Or.inr hh
  · rw [hobs, hout]
    show (elems t1).Perm (freePairs (pre ++ b1 :: post1) heapBase)
    rw [ht1]
    have hdel := tree_after_delete_next mm pre blk nb post1 hbs hba hnba hgood htree
    have htarget : freePairs (pre ++ b1 :: post1) heapBase
        = freePairs pre heapBase
          ++ freePairs post1 (heapBase + sizeSum pre + blk.size + nb.size) := by
      rw [freePairs_split, if_neg (by rw [hb1]; simp)]
      rw [show b1.size = blk.size + nb.size from by rw [hb1]]
      rw [show heapBase + sizeSum pre + (blk.size + nb.size)
          = heapBase + sizeSum pre + blk.size + nb.size from by omega]
      simp
    rw [htarget]
    exact hdel

end MMAlloc

namespace MMAlloc

set_option maxHeartbeats 1600000

/-- Core of the fallback path of `mm_realloc`: after a successful
fresh allocation, copying the old payload into the new block and
freeing the old one preserves the invariant and leaves the new block
live at its address. -/
theorem realloc_copy_free_spec (mm mm1 : MM) (ptr np s : Nat) (i0 i1 j : Nat)
    (blk0 nblk nblk2 : Block) (out : MM)
    (hW : WF mm) (hW1 : WF mm1) (hlim1 : mm1.limit = mm.limit)
    (hloc0 : locate mm.blocks heapBase ptr = some (i0, blk0))
    (hal0 : blk0.alloc = true)
    (hgt : blk0.size < adjust_asize s)
    (hlocN : locate mm1.blocks heapBase np = some (j, nblk))
    (hnal : nblk.alloc = true) (hnsz : adjust_asize s ≤ nblk.size)
    (hlocP : locate mm1.blocks heapBase ptr = some (i1, blk0))
    (hnb2 : nblk2 = ⟨nblk.size, nblk.alloc, nblk.color,
      blk0.data.take (blk0.size - DSIZE) ++ nblk.data.drop (blk0.size - DSIZE)⟩)
    (hout : mm_free { mm1 with blocks := mm1.blocks.set j nblk2 } ptr = out) :
    WF out ∧ out.limit = mm.limit ∧
    ∃ j2, locate out.blocks heapBase np = some (j2, nblk2) := by
  have hpos1 : ∀ c ∈ mm1.blocks, 0 < c.size := by
    intro c hc
    have := (hW1.1 c hc).1
    unfold MIN_BLK_SIZE WSIZE at this
    omega
  obtain ⟨preN, postN, hbsN, hlenN, haddrN⟩ :=
    locate_eq_some mm1.blocks heapBase np j nblk hlocN
  have hposPreN : ∀ c ∈ preN, 0 < c.size :=
    fun c hc => hpos1 c (by rw [hbsN]; simp [hc])
  have hd0 : blk0.data.length = blk0.size - 8 := by
    obtain ⟨preZ, postZ, hbsZ, _, _⟩ :=
      locate_eq_some mm.blocks heapBase ptr i0 blk0 hloc0
    exact (hW.1 blk0 (by rw [hbsZ]; simp)).2.2
  have hdn : nblk.data.length = nblk.size - 8 :=
    (hW1.1 nblk (by rw [hbsN]; simp)).2.2
  have hminb : MIN_BLK_SIZE ≤ blk0.size := by
    obtain ⟨preZ, postZ, hbsZ, _, _⟩ :=
      locate_eq_some mm.blocks heapBase ptr i0 blk0 hloc0
    exact (hW.1 blk0 (by rw [hbsZ]; simp)).1
  have hDS : DSIZE = 8 := rfl
  have hMIN : MIN_BLK_SIZE = 24 := rfl
  have hsz2 : nblk2.size = nblk.size := by rw [hnb2]
  have hal2 : nblk2.alloc = nblk.alloc := by rw [hnb2]
  have hd2 : nblk2.data.length = nblk.data.length := by
    rw [hnb2]
    show (blk0.data.take (blk0.size - DSIZE)
      ++ nblk.data.drop (blk0.size - DSIZE)).length = nblk.data.length
    rw [List.length_append, List.length_take, List.length_drop, hd0, hdn, hDS]
    have hasz := adjust_asize_min s
    rw [hMIN] at hasz hminb
    omega
  have hset : mm1.blocks.set j nblk2 = preN ++ nblk2 :: postN := by
    rw [hbsN, ← hlenN, set_at preN nblk nblk2 postN]
  have hne : np ≠ ptr := by
    intro he
    rw [he, hlocP] at hlocN
    have hnb : blk0 = nblk := congrArg Prod.snd (Option.some.inj hlocN)
    rw [← hnb] at hnsz
    omega
  have hW2 : WF { mm1 with blocks := mm1.blocks.set j nblk2 } := by
    rw [hset]
    exact WF_set_data mm1 preN nblk nblk2 postN hbsN hsz2 hal2 hd2 hW1
  have hlocP2 : ∃ i2, locate (mm1.blocks.set j nblk2) heapBase ptr
      = some (i2, blk0) := by
    have hblocksEq : preN ++ [nblk] ++ postN = mm1.blocks := by rw [hbsN]; simp
    have hout2 : ptr < heapBase + sizeSum preN
        ∨ heapBase + sizeSum preN + sizeSum [nblk] ≤ ptr := by
      by_contra hcon
      push_neg at hcon
      obtain ⟨hge, hlt⟩ := hcon
      obtain ⟨preM, postM, hsplitM, haddr2⟩ :=
        locate_in_mid_split preN [nblk] postN heapBase ptr i1 blk0
          (by intro c hc; exact hpos1 c (by rw [← hblocksEq]; exact hc))
          (by rw [hblocksEq]; exact hlocP) hge hlt
      rcases hsplitM2 : preM with _ | ⟨x, xs⟩
      · rw [hsplitM2] at haddr2
        apply hne
        rw [haddrN, haddr2, sizeSum_nil]
        omega
      · rw [hsplitM2] at hsplitM
        have hlenM := congrArg List.length hsplitM
        simp at hlenM
    obtain ⟨j2, hj2⟩ := locate_preserve preN [nblk] [nblk2] postN heapBase ptr i1
      blk0
      (by simp only [sizeSum_cons, sizeSum_nil, hsz2])
      hposPreN
      (by
        intro c hc; simp only [List.mem_singleton] at hc; rw [hc]
        exact hpos1 nblk (by rw [hbsN]; simp))
      (by
        intro c hc; simp only [List.mem_singleton] at hc; rw [hc]
        show 0 < nblk2.size
        rw [hsz2]
        exact hpos1 nblk (by rw [hbsN]; simp))
      (by rw [hblocksEq]; exact hlocP) hout2
    refine ⟨j2, ?_⟩
    rw [hset]
    rw [show preN ++ nblk2 :: postN = preN ++ [nblk2] ++ postN from by simp]
    exact hj2
  obtain ⟨i2, hlocP3⟩ := hlocP2
  obtain ⟨hWo, _, hlimo, _, _, hpresF⟩ :=
    mm_free_spec { mm1 with blocks := mm1.blocks.set j nblk2 } ptr i2 blk0 out
      hW2 hlocP3 hal0 hout
  refine ⟨hWo, ?_, ?_⟩
  · rw [hlimo]
    exact hlim1
  · have hlocN2 : locate (mm1.blocks.set j nblk2) heapBase np
        = some (preN.length, nblk2) := by
      rw [hset, haddrN]
      exact locate_at preN heapBase nblk2 postN hposPreN
    exact hpresF np preN.length nblk2 hlocN2 (by rw [hal2]; exact hnal) hne

/-- Specification of `mm_realloc` under its contract: the invariant
and the heap limit are preserved, and when a live block is resized to
a nonzero size with a non-null result, the result addresses a live
block whose initial payload bytes agree with the old block's over the
smaller of the two payload capacities. -/
theorem mm_realloc_spec (mm : MM) (ptr s res : Nat) (out : MM)
    (hW : WF mm) (hv : ValidPtr mm ptr)
    (hr : mm_realloc mm ptr s = (res, out)) :
    WF out ∧ out.limit = mm.limit ∧
    (∀ i blk, locate mm.blocks heapBase ptr = some (i, blk) → blk.alloc = true →
      s ≠ 0 → res ≠ 0 →
      ∃ j b2, locate out.blocks heapBase res = some (j, b2) ∧ b2.alloc = true ∧
        b2.data.take (min (blk.size - 8) (b2.size - 8))
          = blk.data.take (min (blk.size - 8) (b2.size - 8))) := by
  by_cases hptr0 : ptr = 0
  · subst hptr0
    rw [show mm_realloc mm 0 s = mm_malloc mm s from by simp [mm_realloc]] at hr
    obtain ⟨hWo, hlim, _, _⟩ := mm_malloc_spec mm s res out hW hr
    refine ⟨hWo, hlim, ?_⟩
    intro i blk hloc _ _ _
    obtain ⟨pre, post, _, _, haddr⟩ :=
      locate_eq_some mm.blocks heapBase 0 i blk hloc
    exfalso
    unfold heapBase at haddr
    omega
  · by_cases hs0 : s = 0
    · subst hs0
      rw [show mm_realloc mm ptr 0 = (0, mm_free mm ptr)
        from by simp [mm_realloc, hptr0]] at hr
      have hres : (0 : Nat) = res := congrArg Prod.fst hr
      have hout : mm_free mm ptr = out := congrArg Prod.snd hr
      rcases hv with hv | ⟨i, blk, hloc, halloc⟩
      · exact absurd hv hptr0
      obtain ⟨hWo, _, hlim, _, _, _⟩ := mm_free_spec mm ptr i blk out hW hloc halloc hout
      exact ⟨hWo, hlim, fun _ _ _ _ hs _ => absurd rfl hs⟩
    · simp only [mm_realloc, if_neg hptr0, if_neg hs0] at hr
      rcases hloc0 : locate mm.blocks heapBase ptr with _ | ⟨i0, blk0⟩
      · rw [hloc0] at hr
        have hr2 : ((0 : Nat), mm) = (res, out) := hr
        have hres : (0 : Nat) = res := congrArg Prod.fst hr2
        have hout : mm = out := congrArg Prod.snd hr2
        subst hout
        refine ⟨hW, rfl, ?_⟩
        intro i blk hloc
        exact absurd hloc (by simp)
      · rw [hloc0] at hr
        have hal0 : blk0.alloc = true := by
          rcases hv with hv | ⟨i', blk', hloc', halloc'⟩
          · exact absurd hv hptr0
          · rw [hloc0] at hloc'
            have := Option.some.inj hloc'
            have hb : blk' = blk0 := congrArg Prod.snd this.symm
            rw [← hb]
            exact halloc'
        simp only [] at hr
        by_cases hshr : adjust_asize s ≤ blk0.size
        · rw [if_pos hshr] at hr
          have hr2 : (ptr, mm) = (res, out) := hr
          have hres : ptr = res := congrArg Prod.fst hr2
          have hout : mm = out := congrArg Prod.snd hr2
          subst hout
          refine ⟨hW, rfl, ?_⟩
          intro i blk hloc _ _ _
          have hblk : blk0 = blk := congrArg Prod.snd (Option.some.inj hloc)
          refine ⟨i0, blk, ?_, ?_, rfl⟩
          · rw [← hres, hloc0, hblk]
          · rw [← hblk]
            exact hal0
        · rw [if_neg hshr] at hr
          obtain ⟨pre, post, hbs, hlen, haddr⟩ :=
            locate_eq_some mm.blocks heapBase ptr i0 blk0 hloc0
          have hnext : mm.blocks[i0 + 1]? = post.head? := by
            rw [hbs, ← hlen]
            exact getElem?_succ_at pre blk0 post
          rw [hnext, ← hlen, haddr] at hr
          have hgt : blk0.size < adjust_asize s := Nat.lt_of_not_le hshr
          rcases post with _ | ⟨nb, post1⟩
          · -- no next block: the absorb test fails, fall back to malloc+copy
            rw [if_neg (by simp)] at hr
            rw [← haddr] at hr
            rcases hmal : mm_malloc mm s with ⟨np, mm1⟩
            rw [hmal] at hr
            simp only [] at hr
            obtain ⟨hW1, hlim1, hzero, hsome⟩ := mm_malloc_spec mm s np mm1 hW hmal
            by_cases hnp : np = 0
            · rw [if_pos hnp] at hr
              have hres : (0 : Nat) = res := congrArg Prod.fst hr
              have hout : mm1 = out := congrArg Prod.snd hr
              subst hout
              refine ⟨hW1, hlim1, ?_⟩
              intro i blk hloc _ _ hresne
              exact absurd hres.symm hresne
            · rw [if_neg hnp] at hr
              obtain ⟨⟨j, nblk, hlocN, hnal, hnsz⟩, hpresM⟩ := hsome hnp
              obtain ⟨i1, hlocP⟩ := hpresM ptr i0 blk0 hloc0 hal0
              rw [hlocN, hlocP] at hr
              have hres : np = res := congrArg Prod.fst hr
              have hout : mm_free
                  { mm1 with
                    blocks := mm1.blocks.set j
                      (⟨nblk.size, nblk.alloc, nblk.color,
                        blk0.data.take (blk0.size - DSIZE)
                          ++ nblk.data.drop (blk0.size - DSIZE)⟩ : Block) } ptr = out :=
                congrArg Prod.snd hr
              obtain ⟨hWo, hlimo, j2, hj2⟩ :=
                realloc_copy_free_spec mm mm1 ptr np s i0 i1 j blk0 nblk _ out
                  hW hW1 hlim1 hloc0 hal0 hgt hlocN hnal hnsz hlocP rfl hout
              refine ⟨hWo, hlimo, ?_⟩
              intro i blk hloc _ _ _
              have hblk : blk0 = blk := congrArg Prod.snd (Option.some.inj hloc)
              subst hblk
              have hd0 : blk0.data.length = blk0.size - 8 :=
                (hW.1 blk0 (by rw [hbs]; simp)).2.2
              refine ⟨j2, ⟨nblk.size, nblk.alloc, nblk.color,
                  blk0.data.take (blk0.size - DSIZE)
                    ++ nblk.data.drop (blk0.size - DSIZE)⟩, ?_, ?_, ?_⟩
              · rw [← hres]
                exact hj2
              · show nblk.alloc = true
                exact hnal
              · show ((blk0.data.take (blk0.size - DSIZE)
                    ++ nblk.data.drop (blk0.size - DSIZE)).take
                      (min (blk0.size - 8) (nblk.size - 8)))
                  = blk0.data.take (min (blk0.size - 8) (nblk.size - 8))
                have hmineq : min (blk0.size - 8) (nblk.size - 8) = blk0.size - 8 := by
                  omega
                rw [hmineq]
                rw [show blk0.data.take (blk0.size - DSIZE) = blk0.data from by
                  rw [show (DSIZE : Nat) = 8 from rfl, ← hd0, List.take_length]]
                rw [List.take_append_of_le_length (by rw [hd0])]
          · rw [show ((nb :: post1).head?.elim true Block.alloc) = nb.alloc from rfl,
                show ((nb :: post1).head?.elim 0 Block.size) = nb.size from rfl,
                show ((nb :: post1).head?.elim ([] : List Nat) Block.data) = nb.data
                  from rfl] at hr
            by_cases hcond : nb.alloc = false ∧ adjust_asize s ≤ blk0.size + nb.size
            · rw [if_pos hcond] at hr
              by_cases hsp : MIN_BLK_SIZE ≤ blk0.size + nb.size - adjust_asize s
              · rw [if_pos hsp] at hr
                have hres : heapBase + sizeSum pre = res := congrArg Prod.fst hr
                have hout2 : out = { mm with
                    blocks := (mm.blocks.set pre.length
                        ⟨adjust_asize s, true, 1,
                          (blk0.data ++ metaPad ++ metaPad ++ nb.data).take
                            (adjust_asize s - 8)⟩).set (pre.length + 1)
                      ⟨blk0.size + nb.size - adjust_asize s, false, 1,
                        (blk0.data ++ metaPad ++ metaPad ++ nb.data).drop
                          (adjust_asize s)⟩,
                    tree := idx_insert
                      (idx_delete mm.tree (heapBase + sizeSum pre + blk0.size))
                      (heapBase + sizeSum pre + adjust_asize s)
                      (blk0.size + nb.size - adjust_asize s) } :=
                  (congrArg Prod.snd hr).symm
                obtain ⟨hWo, huse, hlim, hobs⟩ := realloc_split_WF mm pre blk0 nb
                  post1 (adjust_asize s) _ _ _ out hbs hal0 hcond.1 hW
                  (adjust_asize_mod8 s) (adjust_asize_min s) hgt hcond.2 hsp
                  rfl rfl rfl hout2
                refine ⟨hWo, hlim, ?_⟩
                intro i blk hloc _ _ _
                have hblk : blk0 = blk := congrArg Prod.snd (Option.some.inj hloc)
                have hposPre : ∀ c ∈ pre, 0 < c.size := by
                  intro c hc
                  have := (hW.1 c (by rw [hbs]; simp [hc])).1
                  unfold MIN_BLK_SIZE WSIZE at this
                  omega
                have hdl : blk0.data.length = blk0.size - 8 :=
                  (hW.1 blk0 (by rw [hbs]; simp)).2.2
                refine ⟨pre.length,
                  ⟨adjust_asize s, true, 1,
                    (blk0.data ++ metaPad ++ metaPad ++ nb.data).take
                      (adjust_asize s - 8)⟩, ?_, rfl, ?_⟩
                · rw [hobs, ← hres]
                  exact locate_at pre heapBase _ _ hposPre
                · subst hblk
                  show (((blk0.data ++ metaPad ++ metaPad ++ nb.data).take
                      (adjust_asize s - 8)).take
                        (min (blk0.size - 8) (adjust_asize s - 8)))
                    = blk0.data.take (min (blk0.size - 8) (adjust_asize s - 8))
                  have hmineq : min (blk0.size - 8) (adjust_asize s - 8)
                      = blk0.size - 8 := by
                    have := adjust_asize_min s
                    unfold MIN_BLK_SIZE WSIZE at this
                    omega
                  rw [hmineq, List.take_take]
                  rw [show min (blk0.size - 8) (adjust_asize s - 8) = blk0.size - 8
                    from by omega]
                  rw [show blk0.data ++ metaPad ++ metaPad ++ nb.data
                      = blk0.data ++ (metaPad ++ metaPad ++ nb.data) from by simp]
                  rw [List.take_append_of_le_length (by rw [hdl])]
              · rw [if_neg hsp] at hr
                have hres : heapBase + sizeSum pre = res := congrArg Prod.fst hr
                have hout2 : out = { mm with
                    blocks := (mm.blocks.set pre.length
                        ⟨blk0.size + nb.size, true, 1,
                          blk0.data ++ metaPad ++ metaPad ++ nb.data⟩).eraseIdx
                      (pre.length + 1),
                    tree := idx_delete mm.tree
                      (heapBase + sizeSum pre + blk0.size) } :=
                  (congrArg Prod.snd hr).symm
                obtain ⟨hWo, huse, hlim, hobs⟩ := realloc_merge_WF mm pre blk0 nb
                  post1 (adjust_asize s) _ _ out hbs hal0 hcond.1 hW hgt hcond.2
                  rfl rfl hout2
                refine ⟨hWo, hlim, ?_⟩
                intro i blk hloc _ _ _
                have hblk : blk0 = blk := congrArg Prod.snd (Option.some.inj hloc)
                have hposPre : ∀ c ∈ pre, 0 < c.size := by
                  intro c hc
                  have := (hW.1 c (by rw [hbs]; simp [hc])).1
                  unfold MIN_BLK_SIZE WSIZE at this
                  omega
                have hdl : blk0.data.length = blk0.size - 8 :=
                  (hW.1 blk0 (by rw [hbs]; simp)).2.2
                have hgn := hW.1 nb (by rw [hbs]; simp)
                refine ⟨pre.length,
                  ⟨blk0.size + nb.size, true, 1,
                    blk0.data ++ metaPad ++ metaPad ++ nb.data⟩, ?_, rfl, ?_⟩
                · rw [hobs, ← hres]
                  exact locate_at pre heapBase _ _ hposPre
                · subst hblk
                  show ((blk0.data ++ metaPad ++ metaPad ++ nb.data).take
                      (min (blk0.size - 8) (blk0.size + nb.size - 8)))
                    = blk0.data.take (min (blk0.size - 8) (blk0.size + nb.size - 8))
                  have hmineq : min (blk0.size - 8) (blk0.size + nb.size - 8)
                      = blk0.size - 8 := by
                    have := hgn.1
                    unfold MIN_BLK_SIZE WSIZE at this
                    omega
                  rw [hmineq]
                  rw [show blk0.data ++ metaPad ++ metaPad ++ nb.data
                      = blk0.data ++ (metaPad ++ metaPad ++ nb.data) from by simp]
                  rw [List.take_append_of_le_length (by rw [hdl])]
            · rw [if_neg hcond] at hr
              rw [← haddr] at hr
              rcases hmal : mm_malloc mm s with ⟨np, mm1⟩
              rw [hmal] at hr
              simp only [] at hr
              obtain ⟨hW1, hlim1, hzero, hsome⟩ := mm_malloc_spec mm s np mm1 hW hmal
              by_cases hnp : np = 0
              · rw [if_pos hnp] at hr
                have hres : (0 : Nat) = res := congrArg Prod.fst hr
                have hout : mm1 = out := congrArg Prod.snd hr
                subst hout
                refine ⟨hW1, hlim1, ?_⟩
                intro i blk hloc _ _ hresne
                exact absurd hres.symm hresne
              · rw [if_neg hnp] at hr
                obtain ⟨⟨j, nblk, hlocN, hnal, hnsz⟩, hpresM⟩ := hsome hnp
                obtain ⟨i1, hlocP⟩ := hpresM ptr i0 blk0 hloc0 hal0
                rw [hlocN, hlocP] at hr
                have hres : np = res := congrArg Prod.fst hr
                have hout : mm_free
                    { mm1 with
                      blocks := mm1.blocks.set j
                        (⟨nblk.size, nblk.alloc, nblk.color,
                          blk0.data.take (blk0.size - DSIZE)
                            ++ nblk.data.drop (blk0.size - DSIZE)⟩ : Block) } ptr = out :=
                  congrArg Prod.snd hr
                obtain ⟨hWo, hlimo, j2, hj2⟩ :=
                  realloc_copy_free_spec mm mm1 ptr np s i0 i1 j blk0 nblk _ out
                    hW hW1 hlim1 hloc0 hal0 hgt hlocN hnal hnsz hlocP rfl hout
                refine ⟨hWo, hlimo, ?_⟩
                intro i blk hloc _ _ _
                have hblk : blk0 = blk := congrArg Prod.snd (Option.some.inj hloc)
                subst hblk
                have hd0 : blk0.data.length = blk0.size - 8 :=
                  (hW.1 blk0 (by rw [hbs]; simp)).2.2
                refine ⟨j2, ⟨nblk.size, nblk.alloc, nblk.color,
                    blk0.data.take (blk0.size - DSIZE)
                      ++ nblk.data.drop (blk0.size - DSIZE)⟩, ?_, ?_, ?_⟩
                · rw [← hres]
                  exact hj2
                · show nblk.alloc = true
                  exact hnal
                · show ((blk0.data.take (blk0.size - DSIZE)
                      ++ nblk.data.drop (blk0.size - DSIZE)).take
                        (min (blk0.size - 8) (nblk.size - 8)))
                    = blk0.data.take (min (blk0.size - 8) (nblk.size - 8))
                  have hmineq : min (blk0.size - 8) (nblk.size - 8) = blk0.size - 8 := by
                    omega
                  rw [hmineq]
                  rw [show blk0.data.take (blk0.size - DSIZE) = blk0.data from by
                    rw [show (DSIZE : Nat) = 8 from rfl, ← hd0, List.take_length]]
                  rw [List.take_append_of_le_length (by rw [hd0])]

end MMAlloc

namespace MMAlloc

set_option maxHeartbeats 1000000

/-- The empty pre-initialization state is well-formed. -/
theorem WF_empty (limit : Nat) :
    WF { blocks := [], tree := .leaf, used := 4 * WSIZE, limit := limit } := by
  refine ⟨?_, ?_, ?_⟩
  · intro b hb
    simp at hb
  · simp [noAdjFree]
  · show (elems FTree.leaf).Perm (freePairs [] heapBase)
    simp [elems, freePairs]

/-- `mm_init` only produces well-formed states. -/
theorem mm_init_WF (limit : Nat) (mm : MM) (h : mm_init limit = some mm) :
    WF mm := by
  simp only [mm_init] at h
  rcases Nat.lt_or_ge limit (4 * WSIZE) with hlim | hlim
  · rw [if_pos hlim] at h
    exact absurd h (by simp)
  · rw [if_neg (not_lt.mpr hlim)] at h
    rcases hx : extend_heap
        { blocks := [], tree := .leaf, used := 4 * WSIZE, limit := limit }
        (CHUNKSIZE / WSIZE) with _ | ⟨bp, mm1⟩
    · rw [hx] at h
      exact absurd h (by simp)
    · rw [hx] at h
      have hmm : mm1 = mm := Option.some.inj h
      subst hmm
      exact (extend_heap_spec _ (CHUNKSIZE / WSIZE) bp mm1 (WF_empty limit) hx).1

/-- Every reachable allocator state is well-formed: blocks are
healthy, no two adjacent blocks are both free, and the index tracks
exactly the free blocks. -/
theorem reachable_WF (mm : MM) (h : Reachable mm) : WF mm := by
  induction h with
  | init limit mm0 hinit => exact mm_init_WF limit mm0 hinit
  | malloc mm0 s _ ih =>
    exact (mm_malloc_spec mm0 s (mm_malloc mm0 s).1 (mm_malloc mm0 s).2 ih rfl).1
  | free mm0 p _ hv ih =>
    rcases hv with hv | ⟨i, blk, hloc, halloc⟩
    · subst hv
      rw [show mm_free mm0 0 = mm0 from by simp [mm_free]]
      exact ih
    · exact (mm_free_spec mm0 p i blk (mm_free mm0 p) ih hloc halloc rfl).1
  | realloc mm0 p s _ hv ih =>
    exact (mm_realloc_spec mm0 p s (mm_realloc mm0 p s).1 (mm_realloc mm0 p s).2
      ih hv rfl).1

end MMAlloc

namespace MMAlloc

set_option maxHeartbeats 1000000

/-- Claim C4: after every completed public operation starting from an
initialized heap (every reachable state), no two physically adjacent
blocks in the heap are both free. -/
theorem C4_no_adjacent_free_blocks (mm : MM) (h : Reachable mm) :
    noAdjFree mm.blocks :=
  (reachable_WF mm h).2.1

theorem C4_no_adjacent_free_witness : noAdjFree heap0.blocks :=
  C4_no_adjacent_free_blocks heap0 (Reachable.init 100000 heap0 rfl)

/-- Claim C5: in every reachable state the free index holds exactly the
`(address, size)` pairs of the free blocks (so a block is free iff it
is tracked, each free block appears exactly once, and no allocated
block is tracked), each tracked address appears only once, and
`find_fit` only ever returns a tracked pair whose address carries a
free block of that size. -/
theorem C5_index_heap_consistency (mm : MM) (h : Reachable mm) :
    (elems mm.tree).Perm (freePairs mm.blocks heapBase) ∧
    ((elems mm.tree).map Prod.fst).Nodup ∧
    ∀ asize bp sz, find_fit asize mm.tree = some (bp, sz) →
      (bp, sz) ∈ elems mm.tree ∧
      ∃ i blk, locate mm.blocks heapBase bp = some (i, blk) ∧
        blk.alloc = false ∧ blk.size = sz := by
  obtain ⟨hgood, hadj, htree⟩ := reachable_WF mm h
  have hpos : ∀ c ∈ mm.blocks, 0 < c.size := by
    intro c hc
    have := (hgood c hc).1
    unfold MIN_BLK_SIZE WSIZE at this
    omega
  refine ⟨htree, ?_, ?_⟩
  · exact (htree.map Prod.fst).nodup_iff.mpr (freePairs_nodup mm.blocks heapBase hpos)
  · intro asize bp sz hff
    obtain ⟨hmem, _⟩ := find_fit_mem asize mm.tree bp sz hff
    refine ⟨hmem, ?_⟩
    obtain ⟨pre, blkf, post, hbs, half, hszeq, haddr⟩ :=
      freePairs_mem_split mm.blocks heapBase bp sz (htree.mem_iff.mp hmem)
    refine ⟨pre.length, blkf, ?_, half, hszeq⟩
    rw [hbs, haddr]
    exact locate_at pre heapBase blkf post
      (fun c hc => hpos c (by rw [hbs]; simp [hc]))

theorem C5_index_heap_witness :
    (elems heap0.tree).Perm (freePairs heap0.blocks heapBase) ∧
    ((elems heap0.tree).map Prod.fst).Nodup ∧
    ∀ asize bp sz, find_fit asize heap0.tree = some (bp, sz) →
      (bp, sz) ∈ elems heap0.tree ∧
      ∃ i blk, locate heap0.blocks heapBase bp = some (i, blk) ∧
        blk.alloc = false ∧ blk.size = sz :=
  C5_index_heap_consistency heap0 (Reachable.init 100000 heap0 rfl)

end MMAlloc

namespace MMAlloc

set_option maxHeartbeats 1000000

/-- Claim C9, amended: for every request size s > 0 and every reachable
allocator state in which `find_fit` locates a fitting free block (so
the heap is not extended), `mm_malloc s` immediately followed by
`mm_free` of the returned address restores the heap's total free byte
count. -/
theorem C9_roundtrip_preserves_free_bytes (mm : MM) (s bp sz : Nat)
    (h : Reachable mm) (hs : s ≠ 0)
    (hfit : find_fit (adjust_asize s) mm.tree = some (bp, sz)) :
    freeBytes (mm_free (mm_malloc mm s).2 (mm_malloc mm s).1) = freeBytes mm := by
  obtain ⟨hgood, hadj, htree⟩ := reachable_WF mm h
  have hmal : mm_malloc mm s = (bp, place mm bp (adjust_asize s)) := by
    simp only [mm_malloc, if_neg hs, hfit]
  obtain ⟨hmem, hszf⟩ := find_fit_mem (adjust_asize s) mm.tree bp sz hfit
  obtain ⟨pre, blkf, post, hbs, half, hszeq, haddr⟩ :=
    freePairs_mem_split mm.blocks heapBase bp sz (htree.mem_iff.mp hmem)
  obtain ⟨b1, rest, hob, hlocb, hal1, _, _, hg2, ha2, ht2, hu2, hl2, hS2, hfb2, _⟩ :=
    place_spec mm pre blkf post (adjust_asize s) (place mm bp (adjust_asize s))
      hbs half hgood hadj htree (adjust_asize_mod8 s) (adjust_asize_min s)
      (by rw [hszeq]; exact hszf) (by rw [← haddr])
  obtain ⟨_, _, _, _, hfbF, _⟩ :=
    mm_free_spec (place mm bp (adjust_asize s)) bp pre.length b1
      (mm_free (place mm bp (adjust_asize s)) bp) ⟨hg2, ha2, ht2⟩
      (by rw [← haddr] at hlocb; exact hlocb) hal1 rfl
  rw [hmal]
  show freeBytesL (mm_free (place mm bp (adjust_asize s)) bp).blocks
    = freeBytesL mm.blocks
  rw [hfbF, hfb2]

theorem C9_roundtrip_witness :
    find_fit (adjust_asize 100) heap0.tree = some (16, 4096) ∧
    freeBytes (mm_free (mm_malloc heap0 100).2 (mm_malloc heap0 100).1)
      = freeBytes heap0 :=
  ⟨rfl, C9_roundtrip_preserves_free_bytes heap0 100 16 4096
    (Reachable.init 100000 heap0 rfl) (by decide) rfl⟩

/-- Claim C10: for every live block of a reachable state and every nonzero
new size for which `mm_realloc` returns a non-null address, the block
found at the returned address is live and its first
`min(old payload, new payload)` bytes equal the corresponding prefix
of the old block's payload. -/
theorem C10_realloc_preserves_payload_prefix (mm : MM) (p n q : Nat) (i : Nat)
    (blk : Block) (out : MM)
    (h : Reachable mm) (hn : n ≠ 0)
    (hloc : locate mm.blocks heapBase p = some (i, blk)) (hal : blk.alloc = true)
    (hr : mm_realloc mm p n = (q, out)) (hq : q ≠ 0) :
    ∃ j b2, locate out.blocks heapBase q = some (j, b2) ∧ b2.alloc = true ∧
      b2.data.take (min (blk.size - 8) (b2.size - 8))
        = blk.data.take (min (blk.size - 8) (b2.size - 8)) := by
  have hW := reachable_WF mm h
  have hv : ValidPtr mm p := Or.inr ⟨i, blk, hloc, hal⟩
  obtain ⟨_, _, hpay⟩ := mm_realloc_spec mm p n q out hW hv hr
  exact hpay i blk hloc hal hn hq

end MMAlloc

namespace MMAlloc

theorem C10_realloc_payload_witness :
    ∃ j b2, locate (mm_realloc heap1 16 200).2.blocks heapBase
        (mm_realloc heap1 16 200).1 = some (j, b2) ∧ b2.alloc = true ∧
      b2.data.take (min (112 - 8) (b2.size - 8))
        = (List.replicate 104 (0 : Nat)).take (min (112 - 8) (b2.size - 8)) :=
  C10_realloc_preserves_payload_prefix heap1 16 200 (mm_realloc heap1 16 200).1 0
    ⟨112, true, 1, List.replicate 104 0⟩ (mm_realloc heap1 16 200).2
    (Reachable.malloc heap0 100 (Reachable.init 100000 heap0 rfl))
    (by decide) rfl rfl rfl (by decide)

end MMAlloc
